import Mathlib

/-!
Verification development for a small path tracer (Rust), shallowly embedded
in Lean 4.  Scalars (`f32` in the source) are modelled as exact rationals
(`ℚ`); `f32::sqrt` is modelled by `Rat.sqrt`; transcendental functions
(`atan2`, `asin`, `sin`, `powf`) and the constant `PI` are external supplied
operations, modelled by an explicit record of functions (`FExt`) threaded
through the definitions that use them.  IEEE division by zero in the AABB
slab test is modelled faithfully by an extended-rational type `XF` with
`±∞` and `NaN`.  The rejection-sampling loops and the recursive integrator
are modelled with explicit entropy lists / fuel, returning `none` when the
supply is exhausted.
-/

/-- 3-component vector (source: `math::simd::Vec3` / `F32x4`; the fourth
lane always reads zero and carries no meaning, so it is not modelled). -/
structure Vec3 where
  x : ℚ
  y : ℚ
  z : ℚ
deriving DecidableEq

instance : Add Vec3 := ⟨fun a b => ⟨a.x + b.x, a.y + b.y, a.z + b.z⟩⟩

instance : Sub Vec3 := ⟨fun a b => ⟨a.x - b.x, a.y - b.y, a.z - b.z⟩⟩

instance : Neg Vec3 := ⟨fun a => ⟨-a.x, -a.y, -a.z⟩⟩

/-- Componentwise (Hadamard) product, source `impl Mul for Vec3`. -/
instance : Mul Vec3 := ⟨fun a b => ⟨a.x * b.x, a.y * b.y, a.z * b.z⟩⟩

/-- Scalar multiple, source `impl Mul<f32> for Vec3`. -/
instance : SMul ℚ Vec3 := ⟨fun s a => ⟨s * a.x, s * a.y, s * a.z⟩⟩

/-- Scalar division, source `impl Div<f32> for Vec3`. -/
def Vec3.sdiv (a : Vec3) (s : ℚ) : Vec3 := ⟨a.x / s, a.y / s, a.z / s⟩

/-- Dot product (the fourth lane of the source vector is zero). -/
def Vec3.dot (a b : Vec3) : ℚ := a.x * b.x + a.y * b.y + a.z * b.z

/-- Componentwise minimum, source `Vec3::min`. -/
def Vec3.cmin (a b : Vec3) : Vec3 := ⟨min a.x b.x, min a.y b.y, min a.z b.z⟩

/-- Componentwise maximum, source `Vec3::max`. -/
def Vec3.cmax (a b : Vec3) : Vec3 := ⟨max a.x b.x, max a.y b.y, max a.z b.z⟩

instance : Inhabited Vec3 := ⟨⟨0, 0, 0⟩⟩

/-- Model of `f32::sqrt`.  Exact on rationals whose numerator and
denominator are perfect squares; an approximation otherwise, mirroring
the fact that the source's `sqrt` is inexact on most inputs. -/
def msqrt (q : ℚ) : ℚ := Rat.sqrt q

/-- Vector length, source `Vec3::length` (`self.dot(self).sqrt()`). -/
def Vec3.length (v : Vec3) : ℚ := msqrt (v.dot v)

/-- Unit vector, source `Vec3::unit` (`self / self.length()`).  For a
zero-length input the source divides by zero (the spec calls this a fatal
programmer error); the model yields the junk value produced by rational
division by zero. -/
def Vec3.unit (v : Vec3) : Vec3 := v.sdiv v.length

/-- Source `HitRecord` (pbrt.rs).  `Default` derives to all-zero fields. -/
structure HitRecord where
  t : ℚ
  p : Vec3
  normal : Vec3
  material : ℕ
  u : ℚ
  v : ℚ
deriving DecidableEq

instance : Inhabited HitRecord := ⟨⟨0, ⟨0, 0, 0⟩, ⟨0, 0, 0⟩, 0, 0, 0⟩⟩

/-- Source `Ray` (pbrt.rs).  `max_depth` is a `usize`. -/
structure Ray where
  origin : Vec3
  direction : Vec3
  time : ℚ
  max_depth : ℕ
deriving DecidableEq

instance : Inhabited Ray := ⟨⟨⟨0, 0, 0⟩, ⟨0, 0, 0⟩, 0, 0⟩⟩

/-- Source `Ray::new`: the direction is normalized at construction. -/
def Ray.new (origin direction : Vec3) (time : ℚ) (max_depth : ℕ) : Ray :=
  ⟨origin, direction.unit, time, max_depth⟩

/-- Source `Ray::point_at_param`: `origin + t * direction`. -/
def Ray.pointAtParam (r : Ray) (t : ℚ) : Vec3 := r.origin + t • r.direction

/-- Wrapping 64-bit `usize` decrement, modelling `n - 1` on `usize` in
release mode (`0 - 1` wraps to `2^64 - 1`). -/
def usub1 (n : ℕ) : ℕ := (n + (2 ^ 64 - 1)) % 2 ^ 64

/-- Extended rational: a finite value, `±∞`, or `NaN`, modelling the IEEE
`f32` special values that arise in the AABB slab test when a ray direction
component is zero (`1.0 / 0.0 = +∞`, `0.0 * ∞ = NaN`).  Rationals have no
negative zero, so `1/d` at `d = 0` is `+∞`. -/
inductive XF where
  | nan : XF
  | ninf : XF
  | fin : ℚ → XF
  | pinf : XF
deriving DecidableEq

/-- IEEE `<` on extended values: any comparison with `NaN` is false. -/
def XF.lt : XF → XF → Bool
  | .nan, _ => false
  | _, .nan => false
  | .ninf, .ninf => false
  | .ninf, _ => true
  | _, .ninf => false
  | .pinf, _ => false
  | .fin _, .pinf => true
  | .fin a, .fin b => decide (a < b)

/-- IEEE product of a finite value and an extended value
(`q * ±∞` is `∓∞`/`±∞` by sign, `0 * ±∞` is `NaN`). -/
def XF.mulQ (q : ℚ) : XF → XF
  | .nan => .nan
  | .fin r => .fin (q * r)
  | .pinf => if 0 < q then .pinf else if q < 0 then .ninf else .nan
  | .ninf => if 0 < q then .ninf else if q < 0 then .pinf else .nan

/-- IEEE reciprocal `1.0 / d` of a finite value: `+∞` at zero. -/
def XF.inv (d : ℚ) : XF := if d = 0 then .pinf else .fin (1 / d)

/-- Source `AABB` (pbrt.rs). -/
structure AABB where
  min : Vec3
  max : Vec3
deriving DecidableEq

instance : Inhabited AABB := ⟨⟨⟨0, 0, 0⟩, ⟨0, 0, 0⟩⟩⟩

/-- Source `AABB::surround`: componentwise min of minima, max of maxima. -/
def AABB.surround (b0 b1 : AABB) : AABB :=
  ⟨b0.min.cmin b1.min, b0.max.cmax b1.max⟩

/-- One axis of the slab test of `AABB::hit`: compute `inv_dir`, the two
plane distances `t0`, `t1`, swap when `inv_dir < 0`, narrow the running
window, and signal a miss (`none`) when the narrowed window is empty. -/
def slab (mn mx o d : ℚ) (tmin tmax : XF) : Option (XF × XF) :=
  let inv := XF.inv d
  let t0 := XF.mulQ (mn - o) inv
  let t1 := XF.mulQ (mx - o) inv
  let t0' := if XF.lt inv (.fin 0) then t1 else t0
  let t1' := if XF.lt inv (.fin 0) then t0 else t1
  let tmin' := if XF.lt tmin t0' then t0' else tmin
  let tmax' := if XF.lt t1' tmax then t1' else tmax
  if XF.lt tmax' tmin' then none else some (tmin', tmax')

/-- Source `AABB::hit`: the per-axis slab test over the three axes in
order, with the early `return false` on the first empty axis window.
`let tmin`/`let tmax` in the source are fresh locals of each loop
iteration and the parameters `t_min`/`t_max` are never reassigned, so
every axis is tested against the ORIGINAL window: the running interval is
never narrowed across axes (the narrowed pair a slab step computes is
discarded). -/
def AABB.hit (bb : AABB) (r : Ray) (t_min t_max : ℚ) : Bool :=
  match slab bb.min.x bb.max.x r.origin.x r.direction.x
      (.fin t_min) (.fin t_max) with
  | none => false
  | some _ =>
    match slab bb.min.y bb.max.y r.origin.y r.direction.y
        (.fin t_min) (.fin t_max) with
    | none => false
    | some _ =>
      match slab bb.min.z bb.max.z r.origin.z r.direction.z
          (.fin t_min) (.fin t_max) with
      | none => false
      | some _ => true

/-- The membership predicate of one axis slab: the ray parameter `t` puts
the point's coordinate `o + t*d` between the two planes. -/
def inSlab (mn mx o d t : ℚ) : Prop := mn ≤ o + t * d ∧ o + t * d ≤ mx

instance (mn mx o d t : ℚ) : Decidable (inSlab mn mx o d t) := by
  unfold inSlab; infer_instance

@[simp] theorem Vec3.add_x (a b : Vec3) : (a + b).x = a.x + b.x := rfl

@[simp] theorem Vec3.add_y (a b : Vec3) : (a + b).y = a.y + b.y := rfl

@[simp] theorem Vec3.add_z (a b : Vec3) : (a + b).z = a.z + b.z := rfl

@[simp] theorem Vec3.sub_x (a b : Vec3) : (a - b).x = a.x - b.x := rfl

@[simp] theorem Vec3.sub_y (a b : Vec3) : (a - b).y = a.y - b.y := rfl

@[simp] theorem Vec3.sub_z (a b : Vec3) : (a - b).z = a.z - b.z := rfl

@[simp] theorem Vec3.smul_x (s : ℚ) (a : Vec3) : (s • a).x = s * a.x := rfl

@[simp] theorem Vec3.smul_y (s : ℚ) (a : Vec3) : (s • a).y = s * a.y := rfl

@[simp] theorem Vec3.smul_z (s : ℚ) (a : Vec3) : (s • a).z = s * a.z := rfl

/-- Membership of a point in an AABB, componentwise. -/
def pInB (bb : AABB) (p : Vec3) : Prop :=
  bb.min.x ≤ p.x ∧ p.x ≤ bb.max.x ∧ bb.min.y ≤ p.y ∧ p.y ≤ bb.max.y ∧
    bb.min.z ≤ p.z ∧ p.z ≤ bb.max.z

instance (bb : AABB) (p : Vec3) : Decidable (pInB bb p) := by
  unfold pInB; infer_instance

/-- The per-axis entry distance of the slab test as described by the spec:
`(min - o) * inv_dir`, swapped with the exit when `inv_dir < 0`. -/
def slabEntry (mn mx o d : ℚ) : ℚ :=
  if 1 / d < 0 then (mx - o) / d else (mn - o) / d

/-- The per-axis exit distance of the slab test (see `slabEntry`). -/
def slabExit (mn mx o d : ℚ) : ℚ :=
  if 1 / d < 0 then (mn - o) / d else (mx - o) / d

/-- External float operations supplied to the core (`f32::atan2`,
`f32::asin`, `f32::sin`, `f32::powf` and the constant `PI`).  They are
modelled as unspecified functions on the scalar model; no claim proved
below depends on their values. -/
structure FExt where
  atan2 : ℚ → ℚ → ℚ
  asin : ℚ → ℚ
  sin : ℚ → ℚ
  powf : ℚ → ℚ → ℚ
  pi : ℚ

/-- A concrete instance of the external operations, used for evaluating
the definitions on concrete inputs. -/
def dummyExt : FExt := ⟨fun _ _ => 0, fun _ => 0, fun _ => 0, fun _ _ => 0, 0⟩

/-- Source `Sphere` (main.rs). -/
structure Sphere where
  center : Vec3
  radius : ℚ
  radius_squared : ℚ
  material : ℕ
deriving DecidableEq

/-- Source `Sphere::new`: caches `radius_squared = radius * radius`. -/
def Sphere.new (center : Vec3) (radius : ℚ) (material : ℕ) : Sphere :=
  ⟨center, radius, radius * radius, material⟩

/-- Source `Sphere::bounding_box`: the center offset by `radius` in every
axis (the fourth lane of `rv` is zero and not modelled). -/
def Sphere.boundingBox (s : Sphere) : AABB :=
  ⟨s.center - ⟨s.radius, s.radius, s.radius⟩,
   s.center + ⟨s.radius, s.radius, s.radius⟩⟩

/-- Source `Sphere::hit` (main.rs lines 47-84), translated exactly: note
that `rec_p`, `normal`, `phi` and `theta` are computed once from the
smaller root `temp` and reused verbatim in the second (larger-root)
branch. -/
def Sphere.hit (E : FExt) (s : Sphere) (r : Ray) (t_min t_max : ℚ)
    (rec : HitRecord) : Bool × HitRecord :=
  let oc := r.origin - s.center
  let a := r.direction.dot r.direction
  let b := oc.dot r.direction
  let c := oc.dot oc - s.radius_squared
  let discriminat := b * b - a * c
  if 0 < discriminat then
    let dsqrt := msqrt discriminat
    let temp := (-b - dsqrt) / a
    let rec_p := r.pointAtParam temp
    let normal := (rec_p - s.center).sdiv s.radius
    let phi := E.atan2 normal.z normal.x
    let theta := E.asin normal.y
    if temp < t_max ∧ t_min < temp then
      (true, { t := temp, p := rec_p, normal := normal,
               material := s.material,
               u := 1 - (phi + E.pi) / (2 * E.pi),
               v := (theta - E.pi / 2) / E.pi })
    else
      let temp2 := (-b + dsqrt) / a
      if temp2 < t_max ∧ t_min < temp2 then
        (true, { t := temp2, p := rec_p, normal := normal,
                 material := s.material,
                 u := 1 - (phi + E.pi) / (2 * E.pi),
                 v := (theta - E.pi / 2) / E.pi })
      else (false, rec)
  else (false, rec)

/-- Source `MovingSphere` (main.rs). -/
structure MSphere where
  center0 : Vec3
  center1 : Vec3
  t0 : ℚ
  t1 : ℚ
  radius : ℚ
  radius_squared : ℚ
  material : ℕ
deriving DecidableEq

/-- Source `MovingSphere::center`: linear interpolation at ray time. -/
def MSphere.center (m : MSphere) (t : ℚ) : Vec3 :=
  m.center0 + ((t - m.t0) / (m.t1 - m.t0)) • (m.center1 - m.center0)

/-- Source `MovingSphere::hit`: same quadratic as `Sphere::hit` with the
center evaluated at `ray.time`; `p` and `normal` are recomputed in each
branch, and `u`, `v` are not written. -/
def MSphere.hit (m : MSphere) (r : Ray) (t_min t_max : ℚ)
    (rec : HitRecord) : Bool × HitRecord :=
  let oc := r.origin - m.center r.time
  let a := r.direction.dot r.direction
  let b := oc.dot r.direction
  let c := oc.dot oc - m.radius_squared
  let discriminat := b * b - a * c
  if 0 < discriminat then
    let dsqrt := msqrt discriminat
    let temp := (-b - dsqrt) / a
    if temp < t_max ∧ t_min < temp then
      let p := r.pointAtParam temp
      (true, { rec with
        t := temp
        p := p
        normal := (p - m.center r.time).sdiv m.radius
        material := m.material })
    else
      let temp2 := (-b + dsqrt) / a
      if temp2 < t_max ∧ t_min < temp2 then
        let p := r.pointAtParam temp2
        (true, { rec with
          t := temp2
          p := p
          normal := (p - m.center r.time).sdiv m.radius
          material := m.material })
      else (false, rec)
  else (false, rec)

mutual
/-- Closed sum of the `Hitable` trait objects of the program: `Sphere`,
`MovingSphere`, `HitableList` and `BVH` nodes. -/
inductive Hitable : Type where
  | sph : Sphere → Hitable
  | msph : MSphere → Hitable
  | lst : HitableList → Hitable
  | node : AABB → Hitable → Hitable → Hitable

/-- The element sequence of a source `HitableList`. -/
inductive HitableList : Type where
  | nil : HitableList
  | cons : Hitable → HitableList → HitableList
end

mutual
/-- Dispatch of `Hitable::hit`: `Sphere::hit`, `MovingSphere::hit`,
`HitableList::hit` (via `hitListAux`) and `BVH::hit`.  The `&mut rec`
out-parameter is modelled functionally: the result carries the final
contents of the caller's record. -/
def hitH (E : FExt) : Hitable → Ray → ℚ → ℚ → HitRecord → Bool × HitRecord
  | .sph s, r, t_min, t_max, rec => s.hit E r t_min t_max rec
  | .msph m, r, t_min, t_max, rec => m.hit r t_min t_max rec
  | .lst l, r, t_min, t_max, rec =>
    hitListAux E l r t_min t_max (default : HitRecord) false rec
  | .node bb left right, r, t_min, t_max, rec =>
    if AABB.hit bb r t_min t_max then
      let lres := hitH E left r t_min t_max (default : HitRecord)
      let rres := hitH E right r t_min t_max (default : HitRecord)
      if lres.1 then
        if rres.1 then
          if lres.2.t < rres.2.t then (true, lres.2) else (true, rres.2)
        else (true, lres.2)
      else
        if rres.1 then (true, rres.2) else (false, rec)
    else (false, rec)

/-- Source `HitableList::hit` loop state: `temp_rec` is the shared
scratch record passed to every element, `closest` the narrowed upper
bound, `hitAny` the accumulated flag and `rec` the caller's record
(overwritten with a clone of `temp_rec` on every closer hit). -/
def hitListAux (E : FExt) : HitableList → Ray → ℚ → ℚ → HitRecord → Bool →
    HitRecord → Bool × HitRecord
  | .nil, _, _, _, _, hitAny, rec => (hitAny, rec)
  | .cons e rest, r, t_min, closest, temp, hitAny, rec =>
    let res := hitH E e r t_min closest temp
    if res.1 then
      hitListAux E rest r t_min res.2.t res.2 true res.2
    else
      hitListAux E rest r t_min closest res.2 hitAny rec
end

/-- Source `RNG::random_in_unit_sphere`: the rejection loop, drawing three
uniform values per candidate from an explicit entropy list (`none` when
the entropy is exhausted; the real generator never fails).  Note the
source's accept condition is `v.dot(v) >= 1.0`. -/
def randInUnitSphere : List ℚ → Option (Vec3 × List ℚ)
  | a :: b :: c :: g =>
    let v := (2 : ℚ) • (⟨a, b, c⟩ : Vec3) - ⟨1, 1, 1⟩
    if 1 ≤ v.dot v then some (v, g) else randInUnitSphere g
  | _ => none

/-- Source `RNG::random_in_unit_disk`: the rejection loop, drawing two
uniform values per candidate; accepts when `v.dot(v) < 1.0`. -/
def randInUnitDisk : List ℚ → Option (Vec3 × List ℚ)
  | a :: b :: g =>
    let v := (2 : ℚ) • (⟨a, b, 0⟩ : Vec3) - ⟨1, 1, 0⟩
    if v.dot v < 1 then some (v, g) else randInUnitDisk g
  | _ => none

/-- Closed sum of the `Texture` trait objects: `ConstTexture` and
`CheckerTexture`. -/
inductive Texture : Type where
  | const : Vec3 → Texture
  | checker : Texture → Texture → Texture

/-- Source `Texture::value` for both variants; the checker selects the odd
child exactly when `sin(10 p.x) sin(10 p.y) sin(10 p.z) < 0`. -/
def Texture.value (E : FExt) : Texture → ℚ → ℚ → Vec3 → Vec3
  | .const c, _, _, _ => c
  | .checker odd even, u, v, p =>
    let o := E.sin (p.x * 10) * E.sin (p.y * 10) * E.sin (p.z * 10)
    if o < 0 then odd.value E u v p else even.value E u v p

/-- Closed sum of the `Material` trait objects. -/
inductive Material : Type where
  | lambertian : Texture → Material
  | metal : Vec3 → ℚ → Material
  | dielectric : ℚ → Material
  | diffuseLight : Texture → Material

/-- Source `Metal::new`: stores `if fuzz < 1.0 { fuzz } else { 1.0 }`. -/
def Metal.new (albedo : Vec3) (fuzz : ℚ) : Material :=
  .metal albedo (if fuzz < 1 then fuzz else 1)

/-- The stored fuzz of a metal material (0 for other variants). -/
def Material.fuzz : Material → ℚ
  | .metal _ f => f
  | _ => 0

/-- Which materials can scatter (every variant except `DiffuseLight`). -/
def Material.scatters : Material → Bool
  | .diffuseLight _ => false
  | _ => true

/-- Source free function `reflect`: `v - 2(v·n)n`. -/
def reflect (v n : Vec3) : Vec3 := v - (2 * v.dot n) • n

/-- Source free function `refract`: Snell discriminant test. -/
def refract (v n : Vec3) (ni_over_nt : ℚ) : Option Vec3 :=
  let dt := v.dot n
  let discriminant := 1 - ni_over_nt * ni_over_nt * (1 - dt * dt)
  if 0 < discriminant then
    some (ni_over_nt • (v - dt • n) - (msqrt discriminant) • n)
  else none

/-- Source free function `schlick`. -/
def schlick (E : FExt) (cosine ref_idx : ℚ) : ℚ :=
  let r0 := (1 - ref_idx) / (1 + ref_idx)
  let r0 := r0 * r0
  r0 + (1 - r0) * E.powf (1 - cosine) 5

/-- Source `Material::scatter` for the four variants.  The `&mut` out
parameters are modelled by the returned tuple `(bool, attenuation,
scattered, rng)`; for `DiffuseLight` (which writes nothing) the returned
attenuation and ray are the defaults that `Ray::trace` passes in.  `none`
models entropy exhaustion of the explicit rng list. -/
def Material.scatter (E : FExt) :
    Material → List ℚ → Ray → HitRecord →
    Option (Bool × Vec3 × Ray × List ℚ)
  | .lambertian albedo, g, ray, rec =>
    match randInUnitSphere g with
    | none => none
    | some (s, g1) =>
      let target := rec.p + rec.normal + s
      some (true, albedo.value E 0 0 rec.p,
        Ray.new rec.p (target - rec.p) ray.time (usub1 ray.max_depth), g1)
  | .metal albedo fuzz, g, ray, rec =>
    match randInUnitSphere g with
    | none => none
    | some (s, g1) =>
      let reflected := reflect ray.direction rec.normal
      let scat := Ray.new rec.p (reflected + fuzz • s) ray.time
        (usub1 ray.max_depth)
      some (decide (0 < scat.direction.dot rec.normal), albedo, scat, g1)
  | .dielectric ref_idx, g, ray, rec =>
    match g with
    | [] => none
    | rv :: g1 =>
      let reflected := reflect ray.direction rec.normal
      let dir_dot_nrm := ray.direction.dot rec.normal
      let outward_normal :=
        if 0 < dir_dot_nrm then -rec.normal else rec.normal
      let ni_over_nt :=
        if 0 < dir_dot_nrm then ref_idx else 1 / ref_idx
      let cosine :=
        if 0 < dir_dot_nrm then
          ref_idx * dir_dot_nrm / ray.direction.length
        else -dir_dot_nrm / ray.direction.length
      let some_refracted := refract ray.direction outward_normal ni_over_nt
      let reflect_prob :=
        if some_refracted.isSome then schlick E cosine ref_idx else 1
      if rv < reflect_prob then
        some (true, ⟨1, 1, 1⟩,
          Ray.new rec.p reflected ray.time (usub1 ray.max_depth), g1)
      else
        some (true, ⟨1, 1, 1⟩,
          Ray.new rec.p (some_refracted.getD ⟨0, 0, 0⟩) ray.time
            (usub1 ray.max_depth), g1)
  | .diffuseLight _, g, _, _ => some (false, ⟨0, 0, 0⟩, default, g)

/-- Source `Material::emitted`: the default implementation returns zero;
`DiffuseLight` samples its emission texture. -/
def Material.emitted (E : FExt) : Material → ℚ → ℚ → Vec3 → Vec3
  | .diffuseLight emit, u, v, p => emit.value E u v p
  | _, _, _, _ => ⟨0, 0, 0⟩

/-- `f32::MAX`, the upper bound `Ray::trace` passes to `world.hit`. -/
def FMAX : ℚ := 2 ^ 128 - 2 ^ 104

/-- The junk material modelling the out-of-bounds panic of
`matlib.lib[rec.material]`; never relevant under the material-index
validity invariant. -/
def junkMaterial : Material := .diffuseLight (.const ⟨0, 0, 0⟩)

/-- Source `Ray::trace`, with an explicit fuel bounding the number of
recursive unfoldings (`none` when the fuel or the entropy runs out).
Mirrors the source exactly: intersect over `(0.001, f32::MAX)`; on a miss
return black; on a hit compute `emitted`, and only when
`depth < ray.max_depth` (short-circuit `&&`) invoke `scatter`; on a
successful scatter recurse at `depth + 1` on the scattered ray and return
`emitted + attenuation * color`, otherwise return `emitted`. -/
def traceF (E : FExt) (world : Hitable) (matlib : List Material) :
    ℕ → List ℚ → Ray → ℕ → Option (Vec3 × List ℚ)
  | 0, _, _, _ => none
  | fuel + 1, g, ray, depth =>
    let hres := hitH E world ray (1/1000) FMAX default
    if hres.1 then
      let mat := matlib.getD hres.2.material junkMaterial
      let emitted := mat.emitted E hres.2.u hres.2.v hres.2.p
      if depth < ray.max_depth then
        match mat.scatter E g ray hres.2 with
        | none => none
        | some (b, att, scat, g1) =>
          if b then
            match traceF E world matlib fuel g1 scat (depth + 1) with
            | none => none
            | some (col, g2) => some (emitted + att * col, g2)
          else some (emitted, g1)
      else some (emitted, g)
    else some (⟨0, 0, 0⟩, g)

/-- The parameter value (if any) that `Sphere::hit` accepts: the smaller
root of the quadratic when it lies strictly inside `(t_min, t_max)`,
otherwise the larger root under the same test. -/
def sphereAcc (s : Sphere) (r : Ray) (t_min t_max : ℚ) : Option ℚ :=
  let oc := r.origin - s.center
  let a := r.direction.dot r.direction
  let b := oc.dot r.direction
  let c := oc.dot oc - s.radius_squared
  let discriminat := b * b - a * c
  if 0 < discriminat then
    let dsqrt := msqrt discriminat
    let temp := (-b - dsqrt) / a
    if temp < t_max ∧ t_min < temp then some temp
    else
      let temp2 := (-b + dsqrt) / a
      if temp2 < t_max ∧ t_min < temp2 then some temp2 else none
  else none

/-- The claim-side exactness hypothesis for the square root of the
discriminant (the claim's "within floating-point tolerance" hedge):
`msqrt` squares back to the discriminant when the latter is positive. -/
def sqrtExact (s : Sphere) (r : Ray) : Prop :=
  0 < ((r.origin - s.center).dot r.direction) *
      ((r.origin - s.center).dot r.direction) -
    (r.direction.dot r.direction) *
      ((r.origin - s.center).dot (r.origin - s.center) -
        s.radius_squared) →
  msqrt (((r.origin - s.center).dot r.direction) *
      ((r.origin - s.center).dot r.direction) -
    (r.direction.dot r.direction) *
      ((r.origin - s.center).dot (r.origin - s.center) -
        s.radius_squared)) *
  msqrt (((r.origin - s.center).dot r.direction) *
      ((r.origin - s.center).dot r.direction) -
    (r.direction.dot r.direction) *
      ((r.origin - s.center).dot (r.origin - s.center) -
        s.radius_squared)) =
  ((r.origin - s.center).dot r.direction) *
      ((r.origin - s.center).dot r.direction) -
    (r.direction.dot r.direction) *
      ((r.origin - s.center).dot (r.origin - s.center) -
        s.radius_squared)

/-- Source `MovingSphere::bounding_box`: union of the two keyframe
boxes. -/
def MSphere.boundingBox (m : MSphere) : AABB :=
  AABB.surround
    ⟨m.center0 - ⟨m.radius, m.radius, m.radius⟩,
     m.center0 + ⟨m.radius, m.radius, m.radius⟩⟩
    ⟨m.center1 - ⟨m.radius, m.radius, m.radius⟩,
     m.center1 + ⟨m.radius, m.radius, m.radius⟩⟩

/-- The bounding box a `Hitable` reports (`BVH::bounding_box` returns the
stored box; the list case is immaterial for the sphere-only BVH trees the
claims quantify over). -/
def boxOfH : Hitable → AABB
  | .sph s => s.boundingBox
  | .msph m => m.boundingBox
  | .node bb _ _ => bb
  | .lst _ => default

/-- The sphere primitives at the leaves of a BVH tree. -/
def leavesH : Hitable → List Sphere
  | .sph s => [s]
  | .node _ l r => leavesH l ++ leavesH r
  | _ => []

/-- Well-formed sphere-only BVH trees: every node stores exactly the union
of its children's boxes (the invariant `BVH::new` establishes). -/
def wfS : Hitable → Prop
  | .sph _ => True
  | .node bb l r => bb = AABB.surround (boxOfH l) (boxOfH r) ∧ wfS l ∧ wfS r
  | _ => False

/-- Box inclusion, componentwise. -/
def boxSub (inner outer : AABB) : Prop :=
  outer.min.x ≤ inner.min.x ∧ outer.min.y ≤ inner.min.y ∧
  outer.min.z ≤ inner.min.z ∧ inner.max.x ≤ outer.max.x ∧
  inner.max.y ≤ outer.max.y ∧ inner.max.z ≤ outer.max.z

/-- A `HitableList` of sphere primitives. -/
def listOf : List Sphere → HitableList
  | [] => .nil
  | s :: rest => .cons (.sph s) (listOf rest)

/-- Truncation of `(3.0 * rand) as u8` (the random axis choice of
`BVH::new`; `rand` lies in `[0,1)`, so the result is 0, 1 or 2). -/
def axisOf (q : ℚ) : ℕ := (3 * q).floor.toNat

/-- The sort key of `box_x_compare` / `box_y_compare` / `box_z_compare`:
the minimum corner of the primitive's bounding box on the chosen axis. -/
def boxMinAxis (axis : ℕ) (s : Sphere) : ℚ :=
  match axis with
  | 0 => s.boundingBox.min.x
  | 1 => s.boundingBox.min.y
  | _ => s.boundingBox.min.z

/-- The comparator of `BVH::new` as a merge-sort predicate: the source
comparators return `Less` exactly when `a.min[axis] - b.min[axis] < 0`
(and `Greater` otherwise, including ties), so in the stable merge sort
`a` stays before `b` exactly under this test. -/
def sphLe (axis : ℕ) (s1 s2 : Sphere) : Bool :=
  decide (boxMinAxis axis s1 - boxMinAxis axis s2 < 0)

/-- Source `BVH::new`, specialized to sphere primitives (the claim's
scope): draw an axis, sort by the boxes' minimum corner on it, then
build a leaf-duplicating node (one element), a two-leaf node, or split at
the midpoint and recurse on both halves; the node box is the union of the
children's boxes.  The `ℕ` argument threads the rng position, the fuel
bounds the recursion (`fuel = length` always suffices); the empty list is
`unreachable!()` in the source and maps to a junk leaf. -/
def bvhNewAux (g : ℕ → ℚ) : ℕ → ℕ → List Sphere → Hitable × ℕ
  | fuel, k, l =>
    match l.mergeSort (sphLe (axisOf (g k))) with
    | [] => (.sph (Sphere.new ⟨0, 0, 0⟩ 0 0), k + 1)
    | [a] => (.node (AABB.surround a.boundingBox a.boundingBox)
        (.sph a) (.sph a), k + 1)
    | [a, b] => (.node (AABB.surround a.boundingBox b.boundingBox)
        (.sph a) (.sph b), k + 1)
    | a :: b :: c :: rest =>
      match fuel with
      | 0 => (.sph (Sphere.new ⟨0, 0, 0⟩ 0 0), k + 1)
      | fuel' + 1 =>
        let l' := a :: b :: c :: rest
        let i := l'.length / 2
        let res1 := bvhNewAux g fuel' (k + 1) (l'.take i)
        let res2 := bvhNewAux g fuel' res1.2 (l'.drop i)
        (.node (AABB.surround (boxOfH res1.1) (boxOfH res2.1))
          res1.1 res2.1, res2.2)

/-- `BVH::new` over a sphere list, with enough fuel for the whole
recursion. -/
def bvhNew (g : ℕ → ℚ) (l : List Sphere) : Hitable :=
  (bvhNewAux g l.length 0 l).1

theorem msqrt_nonneg (q : ℚ) : 0 ≤ msqrt q := Rat.sqrt_nonneg q

/-- `msqrt` is exact on squares of nonnegative rationals. -/
theorem msqrt_sq {a : ℚ} (ha : 0 ≤ a) : msqrt (a * a) = a := by
  unfold msqrt Rat.sqrt
  rw [Rat.mul_self_num, Rat.mul_self_den]
  rw [Int.sqrt_eq, Nat.sqrt_eq]
  rw [Int.natAbs_of_nonneg (Rat.num_nonneg.mpr ha)]
  rw [Rat.mkRat_self]

@[simp] theorem XF.lt_fin_fin (a b : ℚ) :
    XF.lt (.fin a) (.fin b) = decide (a < b) := rfl

@[simp] theorem XF.lt_fin_pinf (a : ℚ) : XF.lt (.fin a) .pinf = true := rfl

@[simp] theorem XF.lt_pinf (x : XF) : XF.lt .pinf x = false := by
  cases x <;> rfl

@[simp] theorem XF.lt_fin_ninf (a : ℚ) : XF.lt (.fin a) .ninf = false := rfl

@[simp] theorem XF.lt_ninf_fin (a : ℚ) : XF.lt .ninf (.fin a) = true := rfl

@[simp] theorem XF.lt_ninf_pinf : XF.lt .ninf .pinf = true := rfl

@[simp] theorem XF.lt_ninf_ninf : XF.lt .ninf .ninf = false := rfl

@[simp] theorem XF.lt_nan (x : XF) : XF.lt .nan x = false := by
  cases x <;> rfl

@[simp] theorem XF.lt_nan_right (x : XF) : XF.lt x .nan = false := by
  cases x <;> rfl

@[simp] theorem XF.mulQ_fin (q r : ℚ) : XF.mulQ q (.fin r) = .fin (q * r) :=
  rfl

@[simp] theorem XF.mulQ_nan (q : ℚ) : XF.mulQ q .nan = .nan := rfl

theorem XF.mulQ_pinf (q : ℚ) : XF.mulQ q .pinf =
    if 0 < q then .pinf else if q < 0 then .ninf else .nan := rfl

theorem XF.mulQ_ninf (q : ℚ) : XF.mulQ q .ninf =
    if 0 < q then .ninf else if q < 0 then .pinf else .nan := rfl

/-- One slab step, direction component positive: no swap happens and the
entry/exit distances are `(mn-o)/d` and `(mx-o)/d`. -/
theorem slab_char_pos (mn mx o d a b : ℚ) (hd : 0 < d) :
    (slab mn mx o d (.fin a) (.fin b) = none →
      ∀ t : ℚ, a ≤ t → t ≤ b → ¬ inSlab mn mx o d t) ∧
    (∀ u v, slab mn mx o d (.fin a) (.fin b) = some (u, v) →
      ∃ a' b', u = .fin a' ∧ v = .fin b' ∧ a' ≤ b' ∧
        ∀ t : ℚ, (a' ≤ t ∧ t ≤ b') ↔
          (a ≤ t ∧ t ≤ b ∧ inSlab mn mx o d t)) := by
  have hd0 : d ≠ 0 := ne_of_gt hd
  have hinv : ¬ ((1 : ℚ) / d < 0) := not_lt.mpr (le_of_lt (div_pos one_pos hd))
  have e1 : ∀ t : ℚ, ((mn - o) / d ≤ t ↔ mn ≤ o + t * d) := by
    intro t
    rw [div_le_iff₀ hd]
    constructor <;> intro h <;> linarith
  have e2 : ∀ t : ℚ, (t ≤ (mx - o) / d ↔ o + t * d ≤ mx) := by
    intro t
    rw [le_div_iff₀ hd]
    constructor <;> intro h <;> linarith
  simp only [slab, XF.inv, if_neg hd0, XF.mulQ_fin, XF.lt_fin_fin,
    decide_eq_true_eq, mul_one_div, if_neg hinv]
  by_cases h1 : a < (mn - o) / d <;> by_cases h2 : (mx - o) / d < b
  · rw [if_pos h1, if_pos h2]
    simp only [XF.lt_fin_fin, decide_eq_true_eq]
    by_cases h3 : (mx - o) / d < (mn - o) / d
    · rw [if_pos h3]
      refine ⟨fun _ t hat htb hin => ?_, fun u v hv => Option.noConfusion hv⟩
      unfold inSlab at hin
      rw [← e1, ← e2] at hin
      linarith [hin.1, hin.2]
    · rw [if_neg h3]
      refine ⟨fun h => Option.noConfusion h, fun u v hv => ?_⟩
      cases hv
      refine ⟨_, _, rfl, rfl, not_lt.mp h3, fun t => ?_⟩
      unfold inSlab
      rw [← e1, ← e2]
      constructor
      · intro h
        exact ⟨by linarith [h.1], by linarith [h.2], h.1, h.2⟩
      · intro h
        exact ⟨h.2.2.1, h.2.2.2⟩
  · rw [if_pos h1, if_neg h2]
    simp only [XF.lt_fin_fin, decide_eq_true_eq]
    by_cases h3 : b < (mn - o) / d
    · rw [if_pos h3]
      refine ⟨fun _ t hat htb hin => ?_, fun u v hv => Option.noConfusion hv⟩
      unfold inSlab at hin
      rw [← e1, ← e2] at hin
      linarith [hin.1]
    · rw [if_neg h3]
      refine ⟨fun h => Option.noConfusion h, fun u v hv => ?_⟩
      cases hv
      refine ⟨_, _, rfl, rfl, not_lt.mp h3, fun t => ?_⟩
      unfold inSlab
      rw [← e1, ← e2]
      constructor
      · intro h
        exact ⟨by linarith [h.1], h.2, h.1, by linarith [h.2, not_lt.mp h2]⟩
      · intro h
        exact ⟨h.2.2.1, h.2.1⟩
  · rw [if_neg h1, if_pos h2]
    simp only [XF.lt_fin_fin, decide_eq_true_eq]
    by_cases h3 : (mx - o) / d < a
    · rw [if_pos h3]
      refine ⟨fun _ t hat htb hin => ?_, fun u v hv => Option.noConfusion hv⟩
      unfold inSlab at hin
      rw [← e1, ← e2] at hin
      linarith [hin.2]
    · rw [if_neg h3]
      refine ⟨fun h => Option.noConfusion h, fun u v hv => ?_⟩
      cases hv
      refine ⟨_, _, rfl, rfl, not_lt.mp h3, fun t => ?_⟩
      unfold inSlab
      rw [← e1, ← e2]
      constructor
      · intro h
        exact ⟨h.1, by linarith [h.2], by linarith [h.1, not_lt.mp h1], h.2⟩
      · intro h
        exact ⟨h.1, h.2.2.2⟩
  · rw [if_neg h1, if_neg h2]
    simp only [XF.lt_fin_fin, decide_eq_true_eq]
    by_cases h3 : b < a
    · rw [if_pos h3]
      refine ⟨fun _ t hat htb _ => by linarith, fun u v hv => Option.noConfusion hv⟩
    · rw [if_neg h3]
      refine ⟨fun h => Option.noConfusion h, fun u v hv => ?_⟩
      cases hv
      refine ⟨_, _, rfl, rfl, not_lt.mp h3, fun t => ?_⟩
      unfold inSlab
      rw [← e1, ← e2]
      constructor
      · intro h
        exact ⟨h.1, h.2, by linarith [h.1, not_lt.mp h1],
          by linarith [h.2, not_lt.mp h2]⟩
      · intro h
        exact ⟨h.1, h.2.1⟩

/-- One slab step, direction component negative: `inv_dir < 0`, so entry
and exit are swapped before narrowing. -/
theorem slab_char_neg (mn mx o d a b : ℚ) (hd : d < 0) :
    (slab mn mx o d (.fin a) (.fin b) = none →
      ∀ t : ℚ, a ≤ t → t ≤ b → ¬ inSlab mn mx o d t) ∧
    (∀ u v, slab mn mx o d (.fin a) (.fin b) = some (u, v) →
      ∃ a' b', u = .fin a' ∧ v = .fin b' ∧ a' ≤ b' ∧
        ∀ t : ℚ, (a' ≤ t ∧ t ≤ b') ↔
          (a ≤ t ∧ t ≤ b ∧ inSlab mn mx o d t)) := by
  have hd0 : d ≠ 0 := ne_of_lt hd
  have hinv : (1 : ℚ) / d < 0 := div_neg_of_pos_of_neg one_pos hd
  have e1 : ∀ t : ℚ, ((mx - o) / d ≤ t ↔ o + t * d ≤ mx) := by
    intro t
    rw [div_le_iff_of_neg hd]
    constructor <;> intro h <;> linarith
  have e2 : ∀ t : ℚ, (t ≤ (mn - o) / d ↔ mn ≤ o + t * d) := by
    intro t
    rw [le_div_iff_of_neg hd]
    constructor <;> intro h <;> linarith
  simp only [slab, XF.inv, if_neg hd0, XF.mulQ_fin, XF.lt_fin_fin,
    decide_eq_true_eq, mul_one_div, if_pos hinv]
  by_cases h1 : a < (mx - o) / d <;> by_cases h2 : (mn - o) / d < b
  · rw [if_pos h1, if_pos h2]
    simp only [XF.lt_fin_fin, decide_eq_true_eq]
    by_cases h3 : (mn - o) / d < (mx - o) / d
    · rw [if_pos h3]
      refine ⟨fun _ t hat htb hin => ?_, fun u v hv => Option.noConfusion hv⟩
      unfold inSlab at hin
      rw [← e1, ← e2] at hin
      linarith [hin.1, hin.2]
    · rw [if_neg h3]
      refine ⟨fun h => Option.noConfusion h, fun u v hv => ?_⟩
      cases hv
      refine ⟨_, _, rfl, rfl, not_lt.mp h3, fun t => ?_⟩
      unfold inSlab
      rw [← e1, ← e2]
      constructor
      · intro h
        exact ⟨by linarith [h.1], by linarith [h.2], h.2, h.1⟩
      · intro h
        exact ⟨h.2.2.2, h.2.2.1⟩
  · rw [if_pos h1, if_neg h2]
    simp only [XF.lt_fin_fin, decide_eq_true_eq]
    by_cases h3 : b < (mx - o) / d
    · rw [if_pos h3]
      refine ⟨fun _ t hat htb hin => ?_, fun u v hv => Option.noConfusion hv⟩
      unfold inSlab at hin
      rw [← e1, ← e2] at hin
      linarith [hin.2]
    · rw [if_neg h3]
      refine ⟨fun h => Option.noConfusion h, fun u v hv => ?_⟩
      cases hv
      refine ⟨_, _, rfl, rfl, not_lt.mp h3, fun t => ?_⟩
      unfold inSlab
      rw [← e1, ← e2]
      constructor
      · intro h
        exact ⟨by linarith [h.1], h.2, by linarith [h.2, not_lt.mp h2], h.1⟩
      · intro h
        exact ⟨h.2.2.2, h.2.1⟩
  · rw [if_neg h1, if_pos h2]
    simp only [XF.lt_fin_fin, decide_eq_true_eq]
    by_cases h3 : (mn - o) / d < a
    · rw [if_pos h3]
      refine ⟨fun _ t hat htb hin => ?_, fun u v hv => Option.noConfusion hv⟩
      unfold inSlab at hin
      rw [← e1, ← e2] at hin
      linarith [hin.1]
    · rw [if_neg h3]
      refine ⟨fun h => Option.noConfusion h, fun u v hv => ?_⟩
      cases hv
      refine ⟨_, _, rfl, rfl, not_lt.mp h3, fun t => ?_⟩
      unfold inSlab
      rw [← e1, ← e2]
      constructor
      · intro h
        exact ⟨h.1, by linarith [h.2], h.2, by linarith [h.1, not_lt.mp h1]⟩
      · intro h
        exact ⟨h.1, h.2.2.1⟩
  · rw [if_neg h1, if_neg h2]
    simp only [XF.lt_fin_fin, decide_eq_true_eq]
    by_cases h3 : b < a
    · rw [if_pos h3]
      refine ⟨fun _ t hat htb _ => by linarith, fun u v hv =>
        Option.noConfusion hv⟩
    · rw [if_neg h3]
      refine ⟨fun h => Option.noConfusion h, fun u v hv => ?_⟩
      cases hv
      refine ⟨_, _, rfl, rfl, not_lt.mp h3, fun t => ?_⟩
      unfold inSlab
      rw [← e1, ← e2]
      constructor
      · intro h
        exact ⟨h.1, h.2, by linarith [h.2, not_lt.mp h2],
          by linarith [h.1, not_lt.mp h1]⟩
      · intro h
        exact ⟨h.1, h.2.1⟩

/-- One slab step, direction component zero: `inv_dir = +∞`, the plane
distances are `±∞` or `NaN`, and the step passes the window through
unchanged when the origin lies between the planes and fails otherwise. -/
theorem slab_char_zero (mn mx o a b : ℚ) :
    (slab mn mx o 0 (.fin a) (.fin b) = none →
      ∀ t : ℚ, a ≤ t → t ≤ b → ¬ inSlab mn mx o 0 t) ∧
    (∀ u v, slab mn mx o 0 (.fin a) (.fin b) = some (u, v) →
      ∃ a' b', u = .fin a' ∧ v = .fin b' ∧ a' ≤ b' ∧
        ∀ t : ℚ, (a' ≤ t ∧ t ≤ b') ↔
          (a ≤ t ∧ t ≤ b ∧ inSlab mn mx o 0 t)) := by
  have hin0 : ∀ t : ℚ, inSlab mn mx o 0 t ↔ (mn ≤ o ∧ o ≤ mx) := by
    intro t
    unfold inSlab
    rw [mul_zero, add_zero]
  simp only [slab, XF.inv, eq_self_iff_true, if_true, XF.lt_pinf,
    Bool.false_eq_true, if_false]
  have hq : ∀ q : ℚ, q < 0 → XF.mulQ q XF.pinf = XF.ninf := by
    intro q h
    rw [XF.mulQ_pinf, if_neg (not_lt.mpr (le_of_lt h)), if_pos h]
  have hq0 : XF.mulQ 0 XF.pinf = XF.nan := by
    rw [XF.mulQ_pinf, if_neg (lt_irrefl 0), if_neg (lt_irrefl 0)]
  have hqp : ∀ q : ℚ, 0 < q → XF.mulQ q XF.pinf = XF.pinf := by
    intro q h
    rw [XF.mulQ_pinf, if_pos h]
  rcases lt_trichotomy (mn - o) 0 with h1 | h1 | h1 <;>
    rcases lt_trichotomy (mx - o) 0 with h2 | h2 | h2
  · -- mn < o, mx < o : both distances -∞, running max becomes -∞
    rw [hq _ h1, hq _ h2]
    simp only [XF.lt_fin_ninf, XF.lt_ninf_fin, Bool.false_eq_true, if_false,
      if_true]
    refine ⟨fun _ t hat htb hin => ?_, fun u v hv => Option.noConfusion hv⟩
    rw [hin0 t] at hin
    linarith [hin.2]
  · -- mn < o, mx = o : t0 = -∞, t1 = NaN, window passes through
    rw [hq _ h1, h2, hq0]
    simp only [XF.lt_fin_ninf, XF.lt_nan, Bool.false_eq_true, if_false]
    simp only [XF.lt_fin_fin, decide_eq_true_eq]
    by_cases hba : b < a
    · rw [if_pos hba]
      refine ⟨fun _ t hat htb _ => by linarith, fun u v hv =>
        Option.noConfusion hv⟩
    · rw [if_neg hba]
      refine ⟨fun h => Option.noConfusion h, fun u v hv => ?_⟩
      cases hv
      refine ⟨_, _, rfl, rfl, not_lt.mp hba, fun t => ?_⟩
      rw [hin0 t]
      exact ⟨fun h => ⟨h.1, h.2, by linarith, by linarith⟩,
        fun h => ⟨h.1, h.2.1⟩⟩
  · -- mn < o, mx > o : t0 = -∞, t1 = +∞, window passes through
    rw [hq _ h1, hqp _ h2]
    simp only [XF.lt_fin_ninf, XF.lt_pinf, Bool.false_eq_true, if_false]
    simp only [XF.lt_fin_fin, decide_eq_true_eq]
    by_cases hba : b < a
    · rw [if_pos hba]
      refine ⟨fun _ t hat htb _ => by linarith, fun u v hv =>
        Option.noConfusion hv⟩
    · rw [if_neg hba]
      refine ⟨fun h => Option.noConfusion h, fun u v hv => ?_⟩
      cases hv
      refine ⟨_, _, rfl, rfl, not_lt.mp hba, fun t => ?_⟩
      rw [hin0 t]
      exact ⟨fun h => ⟨h.1, h.2, by linarith, by linarith⟩,
        fun h => ⟨h.1, h.2.1⟩⟩
  · -- mn = o, mx < o : t0 = NaN, t1 = -∞, running max becomes -∞
    rw [h1, hq0, hq _ h2]
    simp only [XF.lt_nan_right, XF.lt_ninf_fin,
      Bool.false_eq_true, if_false, if_true]
    refine ⟨fun _ t hat htb hin => ?_, fun u v hv => Option.noConfusion hv⟩
    rw [hin0 t] at hin
    linarith [hin.2]
  · -- mn = o, mx = o : both NaN, window passes through
    rw [h1, h2, hq0]
    simp only [XF.lt_nan, XF.lt_nan_right, Bool.false_eq_true, if_false]
    simp only [XF.lt_fin_fin, decide_eq_true_eq]
    by_cases hba : b < a
    · rw [if_pos hba]
      refine ⟨fun _ t hat htb _ => by linarith, fun u v hv =>
        Option.noConfusion hv⟩
    · rw [if_neg hba]
      refine ⟨fun h => Option.noConfusion h, fun u v hv => ?_⟩
      cases hv
      refine ⟨_, _, rfl, rfl, not_lt.mp hba, fun t => ?_⟩
      rw [hin0 t]
      exact ⟨fun h => ⟨h.1, h.2, by linarith, by linarith⟩,
        fun h => ⟨h.1, h.2.1⟩⟩
  · -- mn = o, mx > o : t0 = NaN, t1 = +∞, window passes through
    rw [h1, hq0, hqp _ h2]
    simp only [XF.lt_nan_right, XF.lt_pinf, Bool.false_eq_true, if_false]
    simp only [XF.lt_fin_fin, decide_eq_true_eq]
    by_cases hba : b < a
    · rw [if_pos hba]
      refine ⟨fun _ t hat htb _ => by linarith, fun u v hv =>
        Option.noConfusion hv⟩
    · rw [if_neg hba]
      refine ⟨fun h => Option.noConfusion h, fun u v hv => ?_⟩
      cases hv
      refine ⟨_, _, rfl, rfl, not_lt.mp hba, fun t => ?_⟩
      rw [hin0 t]
      exact ⟨fun h => ⟨h.1, h.2, by linarith, by linarith⟩,
        fun h => ⟨h.1, h.2.1⟩⟩
  · -- mn > o, mx < o : t0 = +∞, t1 = -∞: empty
    rw [hqp _ h1, hq _ h2]
    simp only [XF.lt_fin_pinf, XF.lt_ninf_fin, XF.lt_ninf_pinf,
      Bool.false_eq_true, if_false, if_true]
    refine ⟨fun _ t hat htb hin => ?_, fun u v hv => Option.noConfusion hv⟩
    rw [hin0 t] at hin
    linarith [hin.1]
  · -- mn > o, mx = o : t0 = +∞, t1 = NaN: empty
    rw [hqp _ h1, h2, hq0]
    simp only [XF.lt_fin_pinf, XF.lt_nan, Bool.false_eq_true, if_false,
      if_true]
    refine ⟨fun _ t hat htb hin => ?_, fun u v hv => Option.noConfusion hv⟩
    rw [hin0 t] at hin
    linarith [hin.1]
  · -- mn > o, mx > o : t0 = +∞, t1 = +∞: empty
    rw [hqp _ h1, hqp _ h2]
    simp only [XF.lt_fin_pinf, XF.lt_pinf, Bool.false_eq_true, if_false,
      if_true]
    refine ⟨fun _ t hat htb hin => ?_, fun u v hv => Option.noConfusion hv⟩
    rw [hin0 t] at hin
    linarith [hin.1]

/-- Characterization of one slab step on finite running bounds, for any
direction component. -/
theorem slab_char (mn mx o d a b : ℚ) :
    (slab mn mx o d (.fin a) (.fin b) = none →
      ∀ t : ℚ, a ≤ t → t ≤ b → ¬ inSlab mn mx o d t) ∧
    (∀ u v, slab mn mx o d (.fin a) (.fin b) = some (u, v) →
      ∃ a' b', u = .fin a' ∧ v = .fin b' ∧ a' ≤ b' ∧
        ∀ t : ℚ, (a' ≤ t ∧ t ≤ b') ↔
          (a ≤ t ∧ t ≤ b ∧ inSlab mn mx o d t)) := by
  rcases lt_trichotomy d 0 with hd | hd | hd
  · exact slab_char_neg mn mx o d a b hd
  · subst hd
    exact slab_char_zero mn mx o a b
  · exact slab_char_pos mn mx o d a b hd

/-- Soundness of the per-axis slab test of `AABB::hit` for BVH pruning:
whenever some ray parameter of the window `[a, b]` lands in the box, the
test returns `true` (each axis's interval then meets the window).  The
converse fails: the source never intersects the axis intervals with one
another, so the test also returns `true` on rays that miss the box — see
the C2 counterexample. -/
theorem AABB.hit_of_point (bb : AABB) (r : Ray) (a b : ℚ) (t : ℚ)
    (hat : a ≤ t) (htb : t ≤ b) (hp : pInB bb (r.pointAtParam t)) :
    AABB.hit bb r a b = true := by
  have hx := slab_char bb.min.x bb.max.x r.origin.x r.direction.x a b
  have hy := slab_char bb.min.y bb.max.y r.origin.y r.direction.y a b
  have hz := slab_char bb.min.z bb.max.z r.origin.z r.direction.z a b
  unfold pInB at hp
  simp only [Ray.pointAtParam, Vec3.add_x, Vec3.smul_x, Vec3.add_y,
    Vec3.smul_y, Vec3.add_z, Vec3.smul_z] at hp
  unfold AABB.hit
  cases h1 : slab bb.min.x bb.max.x r.origin.x r.direction.x
      (.fin a) (.fin b) with
  | none =>
    exfalso
    refine hx.1 h1 t hat htb ?_
    exact ⟨hp.1, hp.2.1⟩
  | some w1 =>
    cases h2 : slab bb.min.y bb.max.y r.origin.y r.direction.y
        (.fin a) (.fin b) with
    | none =>
      exfalso
      refine hy.1 h2 t hat htb ?_
      exact ⟨hp.2.2.1, hp.2.2.2.1⟩
    | some w2 =>
      simp only [h2]
      cases h3 : slab bb.min.z bb.max.z r.origin.z r.direction.z
          (.fin a) (.fin b) with
      | none =>
        exfalso
        refine hz.1 h3 t hat htb ?_
        exact ⟨hp.2.2.2.2.1, hp.2.2.2.2.2⟩
      | some w3 =>
        simp only [h3]

/-- For a nonzero direction component, lying between entry and exit is the
same as the point's coordinate lying between the two planes. -/
theorem slab_interval_iff (mn mx o d t : ℚ) (hd : d ≠ 0) :
    (slabEntry mn mx o d ≤ t ∧ t ≤ slabExit mn mx o d) ↔
      inSlab mn mx o d t := by
  unfold slabEntry slabExit inSlab
  rcases hd.lt_or_lt with h | h
  · have hinv : (1 : ℚ) / d < 0 := div_neg_of_pos_of_neg one_pos h
    rw [if_pos hinv, if_pos hinv, div_le_iff_of_neg h, le_div_iff_of_neg h]
    constructor <;> intro hh <;> exact ⟨by linarith [hh.1, hh.2],
      by linarith [hh.1, hh.2]⟩
  · have hinv : ¬ ((1 : ℚ) / d < 0) :=
      not_lt.mpr (le_of_lt (div_pos one_pos h))
    rw [if_neg hinv, if_neg hinv, div_le_iff₀ h, le_div_iff₀ h]
    constructor <;> intro hh <;> exact ⟨by linarith [hh.1, hh.2],
      by linarith [hh.1, hh.2]⟩

/-- C2 (code bug evidence): `AABB::hit` tests every axis's slab interval
against the ORIGINAL `[t_min, t_max]` window only — the narrowed window a
slab step computes is discarded, never intersected with the next axis.
For the unit box and the ray from `(-10, -2, 0)` with direction
`(1, 4, 1)` on the window `[1/1000, 100]`, the x-axis interval `[9, 11]`
and the y-axis interval `[1/4, 3/4]` are disjoint, so no window parameter
puts the point in the box (the ray misses, and the claimed
running-interval test would return `false`), yet the program returns
`true` because each axis interval separately meets the window. -/
theorem claim2_aabb_hit_true_on_disjoint_slabs :
    (AABB.hit ⟨⟨-1, -1, -1⟩, ⟨1, 1, 1⟩⟩ ⟨⟨-10, -2, 0⟩, ⟨1, 4, 1⟩, 0, 0⟩
        (1/1000) 100 = true) ∧
    (∀ t : ℚ, ¬ (inSlab (-1) 1 (-10) 1 t ∧ inSlab (-1) 1 (-2) 4 t)) ∧
    (∀ t : ℚ, 1/1000 ≤ t → t ≤ 100 →
      ¬ pInB ⟨⟨-1, -1, -1⟩, ⟨1, 1, 1⟩⟩
        (Ray.pointAtParam ⟨⟨-10, -2, 0⟩, ⟨1, 4, 1⟩, 0, 0⟩ t)) := by
  refine ⟨by norm_num [AABB.hit, slab, XF.inv, XF.lt, XF.mulQ], ?_, ?_⟩
  · intro t ht
    obtain ⟨⟨hx1, hx2⟩, ⟨hy1, hy2⟩⟩ := ht
    linarith
  · intro t _ _ hp
    obtain ⟨h1, h2, h3, h4, h5, h6⟩ := hp
    simp only [Ray.pointAtParam, Vec3.add_x, Vec3.smul_x, Vec3.add_y,
      Vec3.smul_y] at h1 h2 h3 h4
    linarith

theorem msqrt_one : msqrt 1 = 1 := by
  have h := @msqrt_sq 1 (by norm_num)
  norm_num at h
  exact h

/-- `Sphere::hit` writes the record only when it returns `true`. -/
theorem Sphere.hit_frame (E : FExt) (s : Sphere) (r : Ray) (a b : ℚ)
    (rec : HitRecord) :
    (s.hit E r a b rec).1 = false → (s.hit E r a b rec).2 = rec := by
  simp only [Sphere.hit]
  split_ifs <;> intro h <;> simp_all

/-- `MovingSphere::hit` writes the record only when it returns `true`. -/
theorem MSphere.msphere_hit_frame (m : MSphere) (r : Ray) (a b : ℚ)
    (rec : HitRecord) :
    (m.hit r a b rec).1 = false → (m.hit r a b rec).2 = rec := by
  simp only [MSphere.hit]
  split_ifs <;> intro h <;> simp_all

/-- Once the accumulated flag of the `HitableList::hit` loop is `true`, it
stays `true`. -/
theorem hitListAux_true : ∀ (E : FExt) (l : HitableList) (r : Ray)
    (t_min closest : ℚ) (temp rec : HitRecord),
    (hitListAux E l r t_min closest temp true rec).1 = true
  | E, .nil, r, t_min, closest, temp, rec => rfl
  | E, .cons e rest, r, t_min, closest, temp, rec => by
    unfold hitListAux
    by_cases h : (hitH E e r t_min closest temp).1 <;>
      simp only [h, if_true, if_false, Bool.false_eq_true] <;>
      exact hitListAux_true E rest r t_min _ _ _

/-- The `HitableList::hit` loop leaves the caller's record untouched when
it reports no hit. -/
theorem hitListAux_frame : ∀ (E : FExt) (l : HitableList) (r : Ray)
    (t_min closest : ℚ) (temp : HitRecord) (hitAny : Bool)
    (rec : HitRecord),
    (hitListAux E l r t_min closest temp hitAny rec).1 = false →
    (hitListAux E l r t_min closest temp hitAny rec).2 = rec
  | E, .nil, r, t_min, closest, temp, hitAny, rec => by
    intro h
    rfl
  | E, .cons e rest, r, t_min, closest, temp, hitAny, rec => by
    unfold hitListAux
    by_cases h : (hitH E e r t_min closest temp).1 <;>
      simp only [h, if_true, if_false, Bool.false_eq_true]
    · intro hfalse
      exact absurd (hitListAux_true E rest r t_min _ _ _)
        (by rw [hfalse]; simp)
    · exact hitListAux_frame E rest r t_min closest _ hitAny rec

/-- Every `Hitable::hit` implementation leaves the caller's record
untouched when it returns `false`. -/
theorem hitH_frame (E : FExt) (h : Hitable) (r : Ray) (a b : ℚ)
    (rec : HitRecord) :
    (hitH E h r a b rec).1 = false → (hitH E h r a b rec).2 = rec := by
  cases h with
  | sph s => exact Sphere.hit_frame E s r a b rec
  | msph m => exact MSphere.msphere_hit_frame m r a b rec
  | lst l =>
    simp only [hitH]
    exact hitListAux_frame E l r a b default false rec
  | node bb left right =>
    simp only [hitH]
    intro hf
    split_ifs at hf ⊢ <;> rfl

/-- C10: every hit test of the `Hitable` interface — `Sphere::hit`,
`MovingSphere::hit`, `HitableList::hit` and `BVH::hit` — writes the
caller's `HitRecord` only when it returns `true`; on a `false` return the
record is exactly the one passed in. -/
theorem claim10_hit_writes_only_on_true (E : FExt) (h : Hitable) (r : Ray)
    (t_min t_max : ℚ) (rec : HitRecord) :
    (hitH E h r t_min t_max rec).1 = false →
    (hitH E h r t_min t_max rec).2 = rec :=
  hitH_frame E h r t_min t_max rec

/-- Witness for C10: a concrete missing ray (sphere behind the origin)
returns `false` and leaves a nontrivial record unchanged. -/
theorem claim10_hit_writes_only_on_true_witness :
    ((hitH dummyExt (.sph (Sphere.new ⟨0, 0, 5⟩ 1 0)) ⟨⟨0, 0, 0⟩, ⟨0, 0, -1⟩, 0, 0⟩
        (1/1000) 100 ⟨7, ⟨1, 2, 3⟩, ⟨4, 5, 6⟩, 9, 8, 7⟩).1 = false) ∧
    (hitH dummyExt (.sph (Sphere.new ⟨0, 0, 5⟩ 1 0)) ⟨⟨0, 0, 0⟩, ⟨0, 0, -1⟩, 0, 0⟩
        (1/1000) 100 ⟨7, ⟨1, 2, 3⟩, ⟨4, 5, 6⟩, 9, 8, 7⟩).2 =
      ⟨7, ⟨1, 2, 3⟩, ⟨4, 5, 6⟩, 9, 8, 7⟩ := by
  have hf : (hitH dummyExt (.sph (Sphere.new ⟨0, 0, 5⟩ 1 0))
      ⟨⟨0, 0, 0⟩, ⟨0, 0, -1⟩, 0, 0⟩ (1/1000) 100
      ⟨7, ⟨1, 2, 3⟩, ⟨4, 5, 6⟩, 9, 8, 7⟩).1 = false := by
    simp only [hitH, Sphere.hit, Sphere.new, Vec3.dot, Ray.pointAtParam]
    norm_num [msqrt_one]
  exact ⟨hf, claim10_hit_writes_only_on_true dummyExt _ _ _ _ _ hf⟩

theorem Vec3.eq_iff (a b : Vec3) :
    a = b ↔ (a.x = b.x ∧ a.y = b.y ∧ a.z = b.z) := by
  constructor
  · intro h
    subst h
    exact ⟨rfl, rfl, rfl⟩
  · rintro ⟨h1, h2, h3⟩
    cases a
    cases b
    simp_all

/-- C3 (code bug evidence): for the unit sphere centered at the origin and
a ray starting at the center, the smaller root `-1` is rejected and the
larger root `1` accepted, yet the populated record carries `p` and
`normal` computed from the rejected smaller root: `rec.p = (0,0,-1)`
whereas the point of the accepted root is `origin + t*dir = (0,0,1)`. -/
theorem claim3_sphere_record_from_rejected_root :
    ((Sphere.hit dummyExt (Sphere.new ⟨0, 0, 0⟩ 1 0)
        ⟨⟨0, 0, 0⟩, ⟨0, 0, 1⟩, 0, 0⟩ 0 100 default).1 = true) ∧
    ((Sphere.hit dummyExt (Sphere.new ⟨0, 0, 0⟩ 1 0)
        ⟨⟨0, 0, 0⟩, ⟨0, 0, 1⟩, 0, 0⟩ 0 100 default).2.t = 1) ∧
    ((Sphere.hit dummyExt (Sphere.new ⟨0, 0, 0⟩ 1 0)
        ⟨⟨0, 0, 0⟩, ⟨0, 0, 1⟩, 0, 0⟩ 0 100 default).2.p = ⟨0, 0, -1⟩) ∧
    ((Sphere.hit dummyExt (Sphere.new ⟨0, 0, 0⟩ 1 0)
        ⟨⟨0, 0, 0⟩, ⟨0, 0, 1⟩, 0, 0⟩ 0 100 default).2.normal =
      ⟨0, 0, -1⟩) ∧
    (Ray.pointAtParam ⟨⟨0, 0, 0⟩, ⟨0, 0, 1⟩, 0, 0⟩ 1 = ⟨0, 0, 1⟩) ∧
    ((Sphere.hit dummyExt (Sphere.new ⟨0, 0, 0⟩ 1 0)
        ⟨⟨0, 0, 0⟩, ⟨0, 0, 1⟩, 0, 0⟩ 0 100 default).2.p ≠
      Ray.pointAtParam ⟨⟨0, 0, 0⟩, ⟨0, 0, 1⟩, 0, 0⟩ 1) := by
  have he : Sphere.hit dummyExt (Sphere.new ⟨0, 0, 0⟩ 1 0)
      ⟨⟨0, 0, 0⟩, ⟨0, 0, 1⟩, 0, 0⟩ 0 100 default =
      (true, { t := 1, p := ⟨0, 0, -1⟩, normal := ⟨0, 0, -1⟩, material := 0,
               u := 1, v := 0 }) := by
    simp only [Sphere.hit, Sphere.new, Vec3.dot, Ray.pointAtParam,
      Vec3.sdiv, dummyExt]
    norm_num [msqrt_one, Prod.ext_iff, HitRecord.mk.injEq, Vec3.eq_iff]
  rw [he]
  refine ⟨rfl, rfl, rfl, rfl, ?_, ?_⟩
  · simp only [Ray.pointAtParam]
    norm_num [Vec3.eq_iff]
  · simp only [Ray.pointAtParam]
    norm_num [Vec3.eq_iff]

/-- Both texture variants ignore the `u`, `v` arguments. -/
theorem Texture.value_ignores_uv (E : FExt) (t : Texture)
    (u v u' v' : ℚ) (p : Vec3) : t.value E u v p = t.value E u' v' p := by
  induction t with
  | const c => rfl
  | checker odd even iho ihe =>
    simp only [Texture.value]
    split_ifs
    · exact iho
    · exact ihe

/-- The wrapping decrement agrees with true subtraction on `[1, 2^64]`. -/
theorem usub1_eq {d : ℕ} (h1 : 1 ≤ d) (h2 : d ≤ 2 ^ 64) :
    usub1 d = d - 1 := by
  unfold usub1
  omega

/-- The wrapping decrement strictly decreases every positive depth. -/
theorem usub1_le {d : ℕ} (h1 : 1 ≤ d) : usub1 d ≤ d - 1 := by
  unfold usub1
  omega

/-- C4 (code bug evidence): the rejection test of
`RNG::random_in_unit_sphere` is inverted — on entropy
`(0.9, 0.9, 0.9)` the first candidate `(0.8, 0.8, 0.8)`, whose squared
norm `48/25` is `≥ 1` (outside the unit ball), is returned immediately,
contradicting the unit-ball constraint `v·v < 1`. -/
theorem claim4_unit_sphere_sampler_returns_outside :
    (randInUnitSphere [9/10, 9/10, 9/10] =
      some (⟨4/5, 4/5, 4/5⟩, [])) ∧
    (Vec3.dot ⟨4/5, 4/5, 4/5⟩ ⟨4/5, 4/5, 4/5⟩ = 48/25) ∧
    ¬ (Vec3.dot ⟨4/5, 4/5, 4/5⟩ ⟨4/5, 4/5, 4/5⟩ < 1) := by
  refine ⟨?_, by norm_num [Vec3.dot], by norm_num [Vec3.dot]⟩
  simp only [randInUnitSphere, Vec3.dot]
  norm_num [Vec3.eq_iff]

/-- The disk sampler, by contrast, does satisfy the claim: every returned
vector has squared norm `< 1` and zero `z` component. -/
theorem randInUnitDisk_inside : ∀ (g : List ℚ) (v : Vec3) (g1 : List ℚ),
    randInUnitDisk g = some (v, g1) → v.dot v < 1 ∧ v.z = 0
  | a :: b :: g, v, g1 => by
    simp only [randInUnitDisk]
    split_ifs with h
    · intro he
      cases he
      exact ⟨h, by norm_num⟩
    · exact randInUnitDisk_inside g v g1
  | [], v, g1 => by
    intro h
    cases h
  | [a], v, g1 => by
    intro h
    cases h

/-- C7 (amended): `Metal::new` stores `fuzz` clamped from above only —
inputs `≥ 1` are stored as `1`, inputs `< 1` (including negative ones)
are stored unchanged; hence the stored value is always `≤ 1` but is not
clamped at `0`. -/
theorem claim7_metal_fuzz_upper_clamp (albedo : Vec3) (f : ℚ) :
    ((Metal.new albedo f).fuzz = if f < 1 then f else 1) ∧
    (Metal.new albedo f).fuzz ≤ 1 := by
  unfold Metal.new Material.fuzz
  constructor
  · rfl
  · split_ifs with h
    · exact le_of_lt h
    · exact le_refl 1

/-- C7 counterexample to the claim as stated: the input `-1` is stored
unchanged, so the stored fuzz is negative, not clamped to `[0, 1]`. -/
theorem claim7_metal_fuzz_counterexample :
    (Metal.new ⟨0, 0, 0⟩ (-1)).fuzz = -1 ∧
    ¬ (0 ≤ (Metal.new ⟨0, 0, 0⟩ (-1)).fuzz) := by
  norm_num [Metal.new, Material.fuzz]

theorem HitRecord.default_eq :
    (default : HitRecord) = ⟨0, ⟨0, 0, 0⟩, ⟨0, 0, 0⟩, 0, 0, 0⟩ := rfl

theorem Ray.default_ray_eq :
    (default : Ray) = ⟨⟨0, 0, 0⟩, ⟨0, 0, 0⟩, 0, 0⟩ := rfl

/-- C8: `Lambertian::scatter` always reports a scatter, samples its albedo
texture (which ignores `u`, `v`) at the hit point, and builds the
scattered ray with the incoming depth budget decremented by one (exact,
no wrap, given a positive in-range budget). -/
theorem claim8_lambertian_scatter (E : FExt) (albedo : Texture)
    (g : List ℚ) (ray : Ray) (rec : HitRecord) (b : Bool) (att : Vec3)
    (scat : Ray) (g1 : List ℚ)
    (hs : Material.scatter E (.lambertian albedo) g ray rec =
      some (b, att, scat, g1))
    (hd : 1 ≤ ray.max_depth) (hr : ray.max_depth ≤ 2 ^ 64) :
    b = true ∧ att = albedo.value E rec.u rec.v rec.p ∧
    scat.max_depth + 1 = ray.max_depth := by
  simp only [Material.scatter] at hs
  cases hrs : randInUnitSphere g with
  | none =>
    rw [hrs] at hs
    dsimp only at hs
    cases hs
  | some sg =>
    obtain ⟨s, g2⟩ := sg
    rw [hrs] at hs
    dsimp only at hs
    simp only [Option.some.injEq, Prod.mk.injEq] at hs
    obtain ⟨h1, h2, h3, h4⟩ := hs
    subst h1
    subst h2
    subst h3
    refine ⟨rfl, Texture.value_ignores_uv E albedo 0 0 rec.u rec.v rec.p, ?_⟩
    show (Ray.new rec.p _ ray.time (usub1 ray.max_depth)).max_depth + 1 =
      ray.max_depth
    unfold Ray.new
    show usub1 ray.max_depth + 1 = ray.max_depth
    rw [usub1_eq hd hr]
    omega

/-- Witness for C8: a concrete scatter event.  The entropy
`(4/5, 9/10, 1/2)` yields the candidate `(3/5, 4/5, 0)` of squared norm
exactly `1`, which the (inverted) rejection test accepts at once; the
default hit record has zero normal, so the scattered direction is the
sample itself (already unit length). -/
theorem claim8_lambertian_scatter_witness :
    (Material.scatter dummyExt (.lambertian (.const ⟨1/2, 1/2, 1/2⟩))
        [4/5, 9/10, 1/2] ⟨⟨0, 0, 0⟩, ⟨0, 0, 1⟩, 0, 1⟩ default =
      some (true, ⟨1/2, 1/2, 1/2⟩, ⟨⟨0, 0, 0⟩, ⟨3/5, 4/5, 0⟩, 0, 0⟩, [])) ∧
    (true = true ∧
      (⟨1/2, 1/2, 1/2⟩ : Vec3) =
        Texture.value dummyExt (.const ⟨1/2, 1/2, 1/2⟩)
          (default : HitRecord).u (default : HitRecord).v
          (default : HitRecord).p ∧
      (0 : ℕ) + 1 = 1) := by
  have hs : Material.scatter dummyExt (.lambertian (.const ⟨1/2, 1/2, 1/2⟩))
      [4/5, 9/10, 1/2] ⟨⟨0, 0, 0⟩, ⟨0, 0, 1⟩, 0, 1⟩ default =
      some (true, ⟨1/2, 1/2, 1/2⟩, ⟨⟨0, 0, 0⟩, ⟨3/5, 4/5, 0⟩, 0, 0⟩, []) := by
    have hrs : randInUnitSphere [4/5, 9/10, 1/2] =
        some (⟨3/5, 4/5, 0⟩, []) := by
      simp only [randInUnitSphere, Vec3.dot]
      norm_num [Vec3.eq_iff]
    simp only [Material.scatter, hrs, Texture.value, Ray.new, Vec3.unit,
      Vec3.length, Vec3.dot, Vec3.sdiv, usub1, HitRecord.default_eq]
    norm_num [Vec3.eq_iff, Prod.ext_iff, Ray.mk.injEq, msqrt_one,
      Nat.mod_self]
  have h := claim8_lambertian_scatter dummyExt (.const ⟨1/2, 1/2, 1/2⟩)
    [4/5, 9/10, 1/2] ⟨⟨0, 0, 0⟩, ⟨0, 0, 1⟩, 0, 1⟩ default true
    ⟨1/2, 1/2, 1/2⟩ ⟨⟨0, 0, 0⟩, ⟨3/5, 4/5, 0⟩, 0, 0⟩ [] hs (by norm_num)
    (by norm_num)
  exact ⟨hs, h.1 ▸ ⟨rfl, h.2.1, h.2.2⟩⟩

theorem Ray.new_max_depth (o d : Vec3) (t : ℚ) (m : ℕ) :
    (Ray.new o d t m).max_depth = m := rfl

/-- C9: under the integrator's guard `depth < ray.max_depth` (so the
incoming budget is at least 1) and an in-range `usize` budget, the
`max_depth - 1` computed by every scattering material (`Lambertian`,
`Metal`, `Dielectric`) is an exact decrement — the wrapping `usize`
subtraction never underflows. -/
theorem claim9_scatter_depth_no_underflow (E : FExt) (mat : Material)
    (g : List ℚ) (ray : Ray) (rec : HitRecord) (depth : ℕ)
    (b : Bool) (att : Vec3) (scat : Ray) (g1 : List ℚ)
    (hguard : depth < ray.max_depth) (hr : ray.max_depth ≤ 2 ^ 64)
    (hm : mat.scatters = true)
    (hs : Material.scatter E mat g ray rec = some (b, att, scat, g1)) :
    scat.max_depth + 1 = ray.max_depth := by
  have hd : 1 ≤ ray.max_depth := by omega
  have key : scat.max_depth = usub1 ray.max_depth →
      scat.max_depth + 1 = ray.max_depth := by
    intro h
    rw [h, usub1_eq hd hr]
    omega
  cases mat with
  | lambertian albedo =>
    simp only [Material.scatter] at hs
    cases hrs : randInUnitSphere g with
    | none =>
      rw [hrs] at hs
      dsimp only at hs
      cases hs
    | some sg =>
      obtain ⟨sv, g2⟩ := sg
      rw [hrs] at hs
      dsimp only at hs
      simp only [Option.some.injEq, Prod.mk.injEq] at hs
      obtain ⟨h1, h2, h3, h4⟩ := hs
      subst h3
      exact key rfl
  | metal albedo fuzz =>
    simp only [Material.scatter] at hs
    cases hrs : randInUnitSphere g with
    | none =>
      rw [hrs] at hs
      dsimp only at hs
      cases hs
    | some sg =>
      obtain ⟨sv, g2⟩ := sg
      rw [hrs] at hs
      dsimp only at hs
      simp only [Option.some.injEq, Prod.mk.injEq] at hs
      obtain ⟨h1, h2, h3, h4⟩ := hs
      subst h3
      exact key rfl
  | dielectric ri =>
    simp only [Material.scatter] at hs
    cases g with
    | nil => cases hs
    | cons rv g2 =>
      dsimp only at hs
      split_ifs at hs <;>
        simp only [Option.some.injEq, Prod.mk.injEq] at hs <;>
        obtain ⟨h1, h2, h3, h4⟩ := hs <;>
        subst h3 <;>
        exact key rfl
  | diffuseLight t =>
    simp [Material.scatters] at hm

/-- Witness for C9 at a concrete metal scatter event with incoming budget
`1`: the scattered ray carries budget `0 = 1 - 1` (no wrap). -/
theorem claim9_scatter_depth_no_underflow_witness :
    (Material.scatter dummyExt (.metal ⟨1, 1, 1⟩ 0) [4/5, 9/10, 1/2]
        ⟨⟨0, 0, 0⟩, ⟨0, 0, 1⟩, 0, 1⟩ default =
      some (false, ⟨1, 1, 1⟩, ⟨⟨0, 0, 0⟩, ⟨0, 0, 1⟩, 0, 0⟩, [])) ∧
    (0 : ℕ) + 1 = 1 := by
  have hrs : randInUnitSphere [4/5, 9/10, 1/2] =
      some (⟨3/5, 4/5, 0⟩, []) := by
    simp only [randInUnitSphere, Vec3.dot]
    norm_num [Vec3.eq_iff]
  have hs : Material.scatter dummyExt (.metal ⟨1, 1, 1⟩ 0) [4/5, 9/10, 1/2]
      ⟨⟨0, 0, 0⟩, ⟨0, 0, 1⟩, 0, 1⟩ default =
      some (false, ⟨1, 1, 1⟩, ⟨⟨0, 0, 0⟩, ⟨0, 0, 1⟩, 0, 0⟩, []) := by
    simp only [Material.scatter, hrs, reflect, Ray.new, Vec3.unit,
      Vec3.length, Vec3.dot, Vec3.sdiv, usub1, HitRecord.default_eq]
    norm_num [Vec3.eq_iff, Prod.ext_iff, Ray.mk.injEq, msqrt_one,
      Nat.mod_self, decide_eq_false_iff_not]
  have h := claim9_scatter_depth_no_underflow dummyExt (.metal ⟨1, 1, 1⟩ 0)
    [4/5, 9/10, 1/2] ⟨⟨0, 0, 0⟩, ⟨0, 0, 1⟩, 0, 1⟩ default 0 false
    ⟨1, 1, 1⟩ ⟨⟨0, 0, 0⟩, ⟨0, 0, 1⟩, 0, 0⟩ [] (by norm_num) (by norm_num)
    rfl hs
  exact ⟨hs, h⟩

/-- C5: when the call depth has reached the ray's depth budget
(`depth >= ray.max_depth`), a hitting trace returns exactly the hit
material's `emitted(u, v, p)`: the short-circuit `&&` never invokes
`scatter`, no recursive call happens, and the rng is untouched. -/
theorem claim5_trace_depth_exhausted_returns_emitted (E : FExt)
    (world : Hitable) (matlib : List Material) (fuel : ℕ) (g : List ℚ)
    (ray : Ray) (depth : ℕ)
    (hd : ray.max_depth ≤ depth)
    (hhit : (hitH E world ray (1/1000) FMAX default).1 = true)
    (_hvalid : (hitH E world ray (1/1000) FMAX default).2.material <
      matlib.length) :
    traceF E world matlib (fuel + 1) g ray depth =
      some ((matlib.getD (hitH E world ray (1/1000) FMAX default).2.material
          junkMaterial).emitted E
        (hitH E world ray (1/1000) FMAX default).2.u
        (hitH E world ray (1/1000) FMAX default).2.v
        (hitH E world ray (1/1000) FMAX default).2.p, g) := by
  simp only [traceF, hhit, if_true]
  rw [if_neg (by omega)]

/-- Witness for C5: a single emissive sphere, a ray with a zero depth
budget; the trace returns the emission `(4,4,4)` with the entropy list
unconsumed. -/
theorem claim5_trace_depth_exhausted_returns_emitted_witness :
    ((hitH dummyExt (.sph (Sphere.new ⟨0, 0, 5⟩ 1 0))
        ⟨⟨0, 0, 0⟩, ⟨0, 0, 1⟩, 0, 0⟩ (1/1000) FMAX default).1 = true) ∧
    traceF dummyExt (.sph (Sphere.new ⟨0, 0, 5⟩ 1 0))
        [.diffuseLight (.const ⟨4, 4, 4⟩)] 1 [9/10] ⟨⟨0, 0, 0⟩, ⟨0, 0, 1⟩, 0, 0⟩ 0 =
      some ((([.diffuseLight (.const ⟨4, 4, 4⟩)] :
          List Material).getD (hitH dummyExt (.sph (Sphere.new ⟨0, 0, 5⟩ 1 0))
            ⟨⟨0, 0, 0⟩, ⟨0, 0, 1⟩, 0, 0⟩ (1/1000) FMAX default).2.material
          junkMaterial).emitted dummyExt
        (hitH dummyExt (.sph (Sphere.new ⟨0, 0, 5⟩ 1 0))
          ⟨⟨0, 0, 0⟩, ⟨0, 0, 1⟩, 0, 0⟩ (1/1000) FMAX default).2.u
        (hitH dummyExt (.sph (Sphere.new ⟨0, 0, 5⟩ 1 0))
          ⟨⟨0, 0, 0⟩, ⟨0, 0, 1⟩, 0, 0⟩ (1/1000) FMAX default).2.v
        (hitH dummyExt (.sph (Sphere.new ⟨0, 0, 5⟩ 1 0))
          ⟨⟨0, 0, 0⟩, ⟨0, 0, 1⟩, 0, 0⟩ (1/1000) FMAX default).2.p, [9/10]) := by
  have hhit : (hitH dummyExt (.sph (Sphere.new ⟨0, 0, 5⟩ 1 0))
      ⟨⟨0, 0, 0⟩, ⟨0, 0, 1⟩, 0, 0⟩ (1/1000) FMAX default).1 = true := by
    simp only [hitH, Sphere.hit, Sphere.new, Vec3.dot, Ray.pointAtParam,
      HitRecord.default_eq, FMAX]
    norm_num [msqrt_one]
  refine ⟨hhit, ?_⟩
  exact claim5_trace_depth_exhausted_returns_emitted dummyExt
    (.sph (Sphere.new ⟨0, 0, 5⟩ 1 0)) [.diffuseLight (.const ⟨4, 4, 4⟩)] 0
    [9/10] ⟨⟨0, 0, 0⟩, ⟨0, 0, 1⟩, 0, 0⟩ 0 (le_refl 0) hhit
    (by
      simp only [hitH, Sphere.hit, Sphere.new, Vec3.dot, Ray.pointAtParam,
        HitRecord.default_eq, FMAX]
      norm_num [msqrt_one])

/-- Every successful scatter carries the wrapped decrement of the
incoming ray's depth budget. -/
theorem scatter_true_depth (E : FExt) (mat : Material) (g : List ℚ)
    (ray : Ray) (rec : HitRecord) (att : Vec3) (scat : Ray) (g1 : List ℚ)
    (hs : Material.scatter E mat g ray rec = some (true, att, scat, g1)) :
    scat.max_depth = usub1 ray.max_depth := by
  cases mat with
  | lambertian albedo =>
    simp only [Material.scatter] at hs
    cases hrs : randInUnitSphere g with
    | none =>
      rw [hrs] at hs
      dsimp only at hs
      cases hs
    | some sg =>
      obtain ⟨sv, g2⟩ := sg
      rw [hrs] at hs
      dsimp only at hs
      simp only [Option.some.injEq, Prod.mk.injEq] at hs
      obtain ⟨h1, h2, h3, h4⟩ := hs
      subst h3
      rfl
  | metal albedo fuzz =>
    simp only [Material.scatter] at hs
    cases hrs : randInUnitSphere g with
    | none =>
      rw [hrs] at hs
      dsimp only at hs
      cases hs
    | some sg =>
      obtain ⟨sv, g2⟩ := sg
      rw [hrs] at hs
      dsimp only at hs
      simp only [Option.some.injEq, Prod.mk.injEq] at hs
      obtain ⟨h1, h2, h3, h4⟩ := hs
      subst h3
      rfl
  | dielectric ri =>
    simp only [Material.scatter] at hs
    cases g with
    | nil => cases hs
    | cons rv g2 =>
      dsimp only at hs
      split_ifs at hs <;>
        simp only [Option.some.injEq, Prod.mk.injEq] at hs <;>
        obtain ⟨h1, h2, h3, h4⟩ := hs <;>
        subst h3 <;>
        rfl
  | diffuseLight t =>
    simp only [Material.scatter, Option.some.injEq, Prod.mk.injEq] at hs
    cases hs.1

/-- The fuel-indexed trace is independent of the fuel once it exceeds
`ray.max_depth - depth`: the recursion never unfolds more than
`max_depth - depth + 1` times. -/
theorem traceF_fuel_indep : ∀ (n : ℕ) (E : FExt) (world : Hitable)
    (matlib : List Material) (f1 f2 : ℕ) (g : List ℚ) (ray : Ray)
    (depth : ℕ), n = ray.max_depth - depth → n + 1 ≤ f1 → n + 1 ≤ f2 →
    traceF E world matlib f1 g ray depth =
      traceF E world matlib f2 g ray depth := by
  intro n
  induction n using Nat.strong_induction_on with
  | _ n IH =>
    intro E world matlib f1 f2 g ray depth hn h1 h2
    obtain ⟨k1, rfl⟩ : ∃ k, f1 = k + 1 := ⟨f1 - 1, by omega⟩
    obtain ⟨k2, rfl⟩ : ∃ k, f2 = k + 1 := ⟨f2 - 1, by omega⟩
    simp only [traceF]
    by_cases hhit : (hitH E world ray (1/1000) FMAX default).1 = true
    · rw [if_pos hhit, if_pos hhit]
      by_cases hdep : depth < ray.max_depth
      · rw [if_pos hdep, if_pos hdep]
        cases hs : Material.scatter E
            (matlib.getD (hitH E world ray (1/1000) FMAX default).2.material
              junkMaterial) g ray
            (hitH E world ray (1/1000) FMAX default).2 with
        | none => rfl
        | some res =>
          obtain ⟨b, att, scat, g1⟩ := res
          dsimp only
          cases b with
          | false =>
            rw [if_neg Bool.false_ne_true, if_neg Bool.false_ne_true]
          | true =>
            have hsd : scat.max_depth = usub1 ray.max_depth :=
              scatter_true_depth E _ g ray _ att scat g1 hs
            have hle : usub1 ray.max_depth ≤ ray.max_depth - 1 :=
              usub1_le (by omega)
            have hrec := IH (scat.max_depth - (depth + 1)) (by omega) E
              world matlib k1 k2 g1 scat (depth + 1) rfl (by omega)
              (by omega)
            rw [if_pos (rfl : (true : Bool) = true),
              if_pos (rfl : (true : Bool) = true), hrec]
      · rw [if_neg hdep, if_neg hdep]
    · rw [if_neg hhit, if_neg hhit]

/-- C6: `Ray::trace` terminates on every input — the recursion depth is
bounded by the initial ray's remaining budget.  Formally: the fuel-indexed
trace (whose fuel counts recursive unfoldings) already reaches its final
value at fuel `ray.max_depth - depth + 1`; any larger fuel gives the same
result, because every recursive call strictly shrinks
`ray.max_depth - depth` (the scattered ray's budget is the incoming one
decremented, the call depth grows by one, and absorption stops the
recursion). -/
theorem claim6_trace_recursion_bounded (E : FExt) (world : Hitable)
    (matlib : List Material) (g : List ℚ) (ray : Ray) (depth fuel : ℕ)
    (hf : ray.max_depth - depth + 1 ≤ fuel) :
    traceF E world matlib fuel g ray depth =
      traceF E world matlib (ray.max_depth - depth + 1) g ray depth :=
  traceF_fuel_indep (ray.max_depth - depth) E world matlib fuel
    (ray.max_depth - depth + 1) g ray depth rfl hf (le_refl _)

/-- Witness for C6 at a concrete scene: with a depth budget of 2 and call
depth 0, fuel 5 and fuel 3 agree. -/
theorem claim6_trace_recursion_bounded_witness :
    traceF dummyExt (.sph (Sphere.new ⟨0, 0, 5⟩ 1 0))
        [.diffuseLight (.const ⟨4, 4, 4⟩)] 5 [9/10]
        ⟨⟨0, 0, 0⟩, ⟨0, 0, 1⟩, 0, 2⟩ 0 =
      traceF dummyExt (.sph (Sphere.new ⟨0, 0, 5⟩ 1 0))
        [.diffuseLight (.const ⟨4, 4, 4⟩)] 3 [9/10]
        ⟨⟨0, 0, 0⟩, ⟨0, 0, 1⟩, 0, 2⟩ 0 :=
  claim6_trace_recursion_bounded dummyExt (.sph (Sphere.new ⟨0, 0, 5⟩ 1 0))
    [.diffuseLight (.const ⟨4, 4, 4⟩)] [9/10]
    ⟨⟨0, 0, 0⟩, ⟨0, 0, 1⟩, 0, 2⟩ 0 5 (by norm_num)

theorem Vec3.dot_self_nonneg (v : Vec3) : 0 ≤ v.dot v := by
  unfold Vec3.dot
  nlinarith [mul_self_nonneg v.x, mul_self_nonneg v.y, mul_self_nonneg v.z]

/-- `Sphere::hit` returns `true` with `rec.t` and `rec.material` as
described by `sphereAcc`; on `none` it returns `false` with the record
untouched. -/
theorem Sphere.hit_acc (E : FExt) (s : Sphere) (r : Ray) (t_min t_max : ℚ)
    (rec : HitRecord) :
    match sphereAcc s r t_min t_max with
    | some t => (s.hit E r t_min t_max rec).1 = true ∧
        (s.hit E r t_min t_max rec).2.t = t ∧
        (s.hit E r t_min t_max rec).2.material = s.material
    | none => s.hit E r t_min t_max rec = (false, rec) := by
  simp only [Sphere.hit, sphereAcc]
  split_ifs <;> simp

/-- Positivity of the quadratic's leading coefficient whenever the
discriminant is positive: if the direction were zero, `b` would vanish
and the discriminant could not be positive. -/
theorem sphere_disc_pos_a_pos (s : Sphere) (r : Ray)
    (h : 0 < ((r.origin - s.center).dot r.direction) *
        ((r.origin - s.center).dot r.direction) -
      (r.direction.dot r.direction) *
        ((r.origin - s.center).dot (r.origin - s.center) -
          s.radius_squared)) :
    0 < r.direction.dot r.direction := by
  rcases lt_or_eq_of_le (Vec3.dot_self_nonneg r.direction) with ha | ha
  · exact ha
  · exfalso
    have ha' : r.direction.dot r.direction = 0 := ha.symm
    have hsum := ha'
    unfold Vec3.dot at hsum
    have hx : r.direction.x = 0 := by
      refine mul_self_eq_zero.mp (le_antisymm ?_ (mul_self_nonneg _))
      nlinarith [mul_self_nonneg r.direction.y, mul_self_nonneg r.direction.z]
    have hy : r.direction.y = 0 := by
      refine mul_self_eq_zero.mp (le_antisymm ?_ (mul_self_nonneg _))
      nlinarith [mul_self_nonneg r.direction.x, mul_self_nonneg r.direction.z]
    have hz : r.direction.z = 0 := by
      refine mul_self_eq_zero.mp (le_antisymm ?_ (mul_self_nonneg _))
      nlinarith [mul_self_nonneg r.direction.x, mul_self_nonneg r.direction.y]
    have hb : (r.origin - s.center).dot r.direction = 0 := by
      unfold Vec3.dot
      rw [hx, hy, hz]
      ring
    rw [hb, ha'] at h
    norm_num at h

theorem sphereAcc_bounds (s : Sphere) (r : Ray) (t_min t_max u : ℚ)
    (h : sphereAcc s r t_min t_max = some u) : t_min < u ∧ u < t_max := by
  simp only [sphereAcc] at h
  split_ifs at h with h1 h2 h3
  · cases h
    exact ⟨h2.2, h2.1⟩
  · cases h
    exact ⟨h3.2, h3.1⟩

/-- Expansion of the squared distance along the ray. -/
theorem Vec3.dot_expand (oc d : Vec3) (u : ℚ) :
    (oc + u • d).dot (oc + u • d) =
      oc.dot oc + 2 * u * (oc.dot d) + u * u * (d.dot d) := by
  unfold Vec3.dot
  simp only [Vec3.add_x, Vec3.add_y, Vec3.add_z, Vec3.smul_x, Vec3.smul_y,
    Vec3.smul_z]
  ring

theorem point_sub_center (r : Ray) (s : Sphere) (u : ℚ) :
    r.pointAtParam u - s.center = (r.origin - s.center) + u • r.direction := by
  unfold Ray.pointAtParam
  rw [Vec3.eq_iff]
  simp only [Vec3.add_x, Vec3.add_y, Vec3.add_z, Vec3.sub_x, Vec3.sub_y,
    Vec3.sub_z, Vec3.smul_x, Vec3.smul_y, Vec3.smul_z]
  refine ⟨by ring, by ring, by ring⟩

/-- An accepted parameter satisfies the sphere equation exactly (under the
exact-square-root hypothesis), so the hit point lies on the sphere. -/
theorem sphereAcc_on_sphere (s : Sphere) (r : Ray) (t_min t_max u : ℚ)
    (hex : sqrtExact s r)
    (hacc : sphereAcc s r t_min t_max = some u) :
    (r.pointAtParam u - s.center).dot (r.pointAtParam u - s.center) =
      s.radius_squared := by
  simp only [sphereAcc] at hacc
  rw [point_sub_center, Vec3.dot_expand]
  split_ifs at hacc with h1 h2 h3
  · cases hacc
    have ha := sphere_disc_pos_a_pos s r h1
    have hq := hex h1
    have hau : (r.direction.dot r.direction) *
        ((-((r.origin - s.center).dot r.direction) -
          msqrt (((r.origin - s.center).dot r.direction) *
              ((r.origin - s.center).dot r.direction) -
            (r.direction.dot r.direction) *
              ((r.origin - s.center).dot (r.origin - s.center) -
                s.radius_squared))) /
          (r.direction.dot r.direction)) =
        -((r.origin - s.center).dot r.direction) -
          msqrt (((r.origin - s.center).dot r.direction) *
              ((r.origin - s.center).dot r.direction) -
            (r.direction.dot r.direction) *
              ((r.origin - s.center).dot (r.origin - s.center) -
                s.radius_squared)) := by
      field_simp
    set A := r.direction.dot r.direction with hA
    set B := (r.origin - s.center).dot r.direction with hB
    set C := (r.origin - s.center).dot (r.origin - s.center) with hC
    set Q := msqrt (B * B - A * (C - s.radius_squared)) with hQ
    have key : A * (C + 2 * ((-B - Q) / A) * B +
        ((-B - Q) / A) * ((-B - Q) / A) * A - s.radius_squared) = 0 := by
      have expand : A * (C + 2 * ((-B - Q) / A) * B +
          ((-B - Q) / A) * ((-B - Q) / A) * A - s.radius_squared) =
          (A * ((-B - Q) / A)) * ((-B - Q) / A) * A +
            2 * B * (A * ((-B - Q) / A)) + A * (C - s.radius_squared) := by
        ring
      rw [expand, hau]
      have expand2 : (-B - Q) * ((-B - Q) / A) * A +
          2 * B * (-B - Q) + A * (C - s.radius_squared) =
          (-B - Q) * (A * ((-B - Q) / A)) +
            2 * B * (-B - Q) + A * (C - s.radius_squared) := by
        ring
      rw [expand2, hau]
      have : (-B - Q) * (-B - Q) + 2 * B * (-B - Q) +
          A * (C - s.radius_squared) = Q * Q - (B * B - A * (C -
            s.radius_squared)) := by
        ring
      rw [this, hq]
      ring
    have hA0 : A ≠ 0 := ne_of_gt ha
    have := mul_eq_zero.mp key
    rcases this with h | h
    · exact absurd h hA0
    · linarith
  · cases hacc
    have ha := sphere_disc_pos_a_pos s r h1
    have hq := hex h1
    set A := r.direction.dot r.direction with hA
    set B := (r.origin - s.center).dot r.direction with hB
    set C := (r.origin - s.center).dot (r.origin - s.center) with hC
    set Q := msqrt (B * B - A * (C - s.radius_squared)) with hQ
    have hau : A * ((-B + Q) / A) = -B + Q := by
      field_simp
    have key : A * (C + 2 * ((-B + Q) / A) * B +
        ((-B + Q) / A) * ((-B + Q) / A) * A - s.radius_squared) = 0 := by
      have expand : A * (C + 2 * ((-B + Q) / A) * B +
          ((-B + Q) / A) * ((-B + Q) / A) * A - s.radius_squared) =
          (A * ((-B + Q) / A)) * ((-B + Q) / A) * A +
            2 * B * (A * ((-B + Q) / A)) + A * (C - s.radius_squared) := by
        ring
      rw [expand, hau]
      have expand2 : (-B + Q) * ((-B + Q) / A) * A +
          2 * B * (-B + Q) + A * (C - s.radius_squared) =
          (-B + Q) * (A * ((-B + Q) / A)) +
            2 * B * (-B + Q) + A * (C - s.radius_squared) := by
        ring
      rw [expand2, hau]
      have : (-B + Q) * (-B + Q) + 2 * B * (-B + Q) +
          A * (C - s.radius_squared) = Q * Q - (B * B - A * (C -
            s.radius_squared)) := by
        ring
      rw [this, hq]
      ring
    have hA0 : A ≠ 0 := ne_of_gt ha
    rcases mul_eq_zero.mp key with h | h
    · exact absurd h hA0
    · linarith

theorem sq_sum_bounds (X Y Z R : ℚ) (hr : 0 < R)
    (h : X * X + Y * Y + Z * Z = R * R) :
    -R ≤ X ∧ X ≤ R ∧ -R ≤ Y ∧ Y ≤ R ∧ -R ≤ Z ∧ Z ≤ R := by
  refine ⟨?_, ?_, ?_, ?_, ?_, ?_⟩ <;>
    nlinarith [mul_self_nonneg (X + R), mul_self_nonneg (X - R),
      mul_self_nonneg (Y + R), mul_self_nonneg (Y - R),
      mul_self_nonneg (Z + R), mul_self_nonneg (Z - R),
      mul_self_nonneg X, mul_self_nonneg Y, mul_self_nonneg Z]

/-- An accepted hit point lies inside the sphere's bounding box. -/
theorem sphereAcc_in_box (s : Sphere) (r : Ray) (t_min t_max u : ℚ)
    (hr : 0 < s.radius)
    (hsq : s.radius_squared = s.radius * s.radius)
    (hex : sqrtExact s r)
    (hacc : sphereAcc s r t_min t_max = some u) :
    pInB s.boundingBox (r.pointAtParam u) := by
  have hd := sphereAcc_on_sphere s r t_min t_max u hex hacc
  rw [hsq] at hd
  unfold Vec3.dot at hd
  simp only [Vec3.sub_x, Vec3.sub_y, Vec3.sub_z] at hd
  have hb := sq_sum_bounds ((r.pointAtParam u).x - s.center.x)
    ((r.pointAtParam u).y - s.center.y) ((r.pointAtParam u).z - s.center.z)
    s.radius hr hd
  unfold pInB Sphere.boundingBox
  simp only [Vec3.sub_x, Vec3.sub_y, Vec3.sub_z, Vec3.add_x, Vec3.add_y,
    Vec3.add_z]
  obtain ⟨b1, b2, b3, b4, b5, b6⟩ := hb
  refine ⟨by linarith, by linarith, by linarith, by linarith, by linarith,
    by linarith⟩

theorem boxSub_refl (b : AABB) : boxSub b b := by
  unfold boxSub
  exact ⟨le_refl _, le_refl _, le_refl _, le_refl _, le_refl _, le_refl _⟩

theorem boxSub_surround_left (b1 b2 : AABB) :
    boxSub b1 (AABB.surround b1 b2) := by
  unfold boxSub AABB.surround Vec3.cmin Vec3.cmax
  refine ⟨min_le_left _ _, min_le_left _ _, min_le_left _ _,
    le_max_left _ _, le_max_left _ _, le_max_left _ _⟩

theorem boxSub_surround_right (b1 b2 : AABB) :
    boxSub b2 (AABB.surround b1 b2) := by
  unfold boxSub AABB.surround Vec3.cmin Vec3.cmax
  refine ⟨min_le_right _ _, min_le_right _ _, min_le_right _ _,
    le_max_right _ _, le_max_right _ _, le_max_right _ _⟩

theorem boxSub_trans {b1 b2 b3 : AABB} (h1 : boxSub b1 b2)
    (h2 : boxSub b2 b3) : boxSub b1 b3 := by
  unfold boxSub at *
  exact ⟨le_trans h2.1 h1.1, le_trans h2.2.1 h1.2.1,
    le_trans h2.2.2.1 h1.2.2.1, le_trans h1.2.2.2.1 h2.2.2.2.1,
    le_trans h1.2.2.2.2.1 h2.2.2.2.2.1, le_trans h1.2.2.2.2.2 h2.2.2.2.2.2⟩

theorem pInB_mono {b1 b2 : AABB} {p : Vec3} (hb : boxSub b1 b2)
    (hp : pInB b1 p) : pInB b2 p := by
  unfold pInB at *
  unfold boxSub at hb
  exact ⟨le_trans hb.1 hp.1, le_trans hp.2.1 hb.2.2.2.1,
    le_trans hb.2.1 hp.2.2.1, le_trans hp.2.2.2.1 hb.2.2.2.2.1,
    le_trans hb.2.2.1 hp.2.2.2.2.1, le_trans hp.2.2.2.2.2 hb.2.2.2.2.2⟩

/-- In a well-formed tree, every leaf sphere's box is contained in the
tree's box. -/
theorem wfS_leaf_box : ∀ (T : Hitable), wfS T →
    ∀ s ∈ leavesH T, boxSub s.boundingBox (boxOfH T)
  | .sph s0, _, s, hs => by
    simp only [leavesH, List.mem_singleton] at hs
    subst hs
    exact boxSub_refl _
  | .node bb l r, hw, s, hs => by
    obtain ⟨hbb, hl, hr⟩ := hw
    simp only [leavesH, List.mem_append] at hs
    rcases hs with hs | hs
    · refine boxSub_trans (wfS_leaf_box l hl s hs) ?_
      rw [show boxOfH (.node bb l r) = bb from rfl, hbb]
      exact boxSub_surround_left _ _
    · refine boxSub_trans (wfS_leaf_box r hr s hs) ?_
      rw [show boxOfH (.node bb l r) = bb from rfl, hbb]
      exact boxSub_surround_right _ _
  | .msph _, hw, s, hs => absurd hw (by simp [wfS])
  | .lst _, hw, s, hs => absurd hw (by simp [wfS])

theorem div_root_le (A B Q : ℚ) (hA : 0 < A) (hQ : 0 ≤ Q) :
    (-B - Q) / A ≤ (-B + Q) / A := by
  rw [div_le_div_iff₀ hA hA]
  nlinarith

/-- Narrowing the upper bound keeps an accepted parameter that is still
strictly below the new bound. -/
theorem sphereAcc_narrow_some (s : Sphere) (r : Ray) (t_min w t_max u : ℚ)
    (hw : w ≤ t_max) (hacc : sphereAcc s r t_min t_max = some u)
    (hu : u < w) : sphereAcc s r t_min w = some u := by
  simp only [sphereAcc] at hacc ⊢
  split_ifs at hacc with h1 h2 h3 <;> cases hacc
  · rw [if_pos h1, if_pos ⟨hu, h2.2⟩]
  · rw [if_pos h1, if_neg (fun hC => h2 ⟨lt_of_lt_of_le hC.1 hw, hC.2⟩),
      if_pos ⟨hu, h3.2⟩]

/-- Narrowing the upper bound below an accepted parameter discards the
sphere entirely (the larger root is then also out of the window). -/
theorem sphereAcc_narrow_none_of_ge (s : Sphere) (r : Ray)
    (t_min w t_max u : ℚ) (hw : w ≤ t_max)
    (hacc : sphereAcc s r t_min t_max = some u) (hu : ¬ u < w) :
    sphereAcc s r t_min w = none := by
  simp only [sphereAcc] at hacc ⊢
  split_ifs at hacc with h1 h2 h3 <;> cases hacc
  · rw [if_pos h1, if_neg (fun hC => hu hC.1),
      if_neg (fun hC => hu (lt_of_le_of_lt
        (div_root_le _ _ _ (sphere_disc_pos_a_pos s r h1)
          (msqrt_nonneg _)) hC.1))]
  · rw [if_pos h1, if_neg (fun hC => h2 ⟨lt_of_lt_of_le hC.1 hw, hC.2⟩),
      if_neg (fun hC => hu hC.1)]

/-- Narrowing the upper bound preserves a miss. -/
theorem sphereAcc_narrow_none (s : Sphere) (r : Ray) (t_min w t_max : ℚ)
    (hw : w ≤ t_max) (hacc : sphereAcc s r t_min t_max = none) :
    sphereAcc s r t_min w = none := by
  simp only [sphereAcc] at hacc ⊢
  split_ifs at hacc with h1 h2 h3 <;> try cases hacc
  · rw [if_pos h1, if_neg (fun hC => h2 ⟨lt_of_lt_of_le hC.1 hw, hC.2⟩),
      if_neg (fun hC => h3 ⟨lt_of_lt_of_le hC.1 hw, hC.2⟩)]
  · rw [if_neg h1]

/-- A hit accepted in a narrowed window is the hit of the full window. -/
theorem sphereAcc_widen (s : Sphere) (r : Ray) (t_min w t_max v : ℚ)
    (hw : w ≤ t_max) (hacc : sphereAcc s r t_min w = some v) :
    sphereAcc s r t_min t_max = some v := by
  rcases h : sphereAcc s r t_min t_max with _ | u
  · rw [sphereAcc_narrow_none s r t_min w t_max hw h] at hacc
    cases hacc
  · by_cases hu : u < w
    · rw [sphereAcc_narrow_some s r t_min w t_max u hw h hu] at hacc
      cases hacc
      rfl
    · rw [sphereAcc_narrow_none_of_ge s r t_min w t_max u hw h hu] at hacc
      cases hacc

/-- Characterization of `BVH::hit` on well-formed sphere-only trees: a
`true` result reports the t-minimal accepted sphere hit over all leaves
(both children probed with the full window, results combined by comparing
`t`), and a `false` result means no leaf accepts any parameter. -/
theorem bvh_char (E : FExt) (r : Ray) (t_min t_max : ℚ) :
    ∀ T : Hitable, wfS T →
    (∀ s ∈ leavesH T, 0 < s.radius ∧
      s.radius_squared = s.radius * s.radius ∧ sqrtExact s r) →
    ∀ rec : HitRecord,
    ((hitH E T r t_min t_max rec).1 = true →
      ∃ s ∈ leavesH T,
        sphereAcc s r t_min t_max = some (hitH E T r t_min t_max rec).2.t ∧
        s.material = (hitH E T r t_min t_max rec).2.material ∧
        ∀ s' ∈ leavesH T, ∀ u, sphereAcc s' r t_min t_max = some u →
          (hitH E T r t_min t_max rec).2.t ≤ u) ∧
    ((hitH E T r t_min t_max rec).1 = false →
      ∀ s ∈ leavesH T, sphereAcc s r t_min t_max = none)
  | .sph s0 => by
    intro _ _ rec
    have hacc := Sphere.hit_acc E s0 r t_min t_max rec
    rcases h : sphereAcc s0 r t_min t_max with _ | t
    · rw [h] at hacc
      constructor
      · intro htrue
        simp only [hitH, hacc] at htrue
        cases htrue
      · intro _ s hs
        simp only [leavesH, List.mem_singleton] at hs
        subst hs
        exact h
    · rw [h] at hacc
      obtain ⟨hb, ht, hm⟩ := hacc
      constructor
      · intro _
        refine ⟨s0, by simp [leavesH], ?_, ?_, ?_⟩
        · show sphereAcc s0 r t_min t_max =
            some (s0.hit E r t_min t_max rec).2.t
          rw [ht, h]
        · exact hm.symm
        · intro s' hs' u hu
          simp only [leavesH, List.mem_singleton] at hs'
          rw [hs'] at hu
          rw [h] at hu
          cases hu
          have he : (hitH E (.sph s0) r t_min t_max rec).2.t = t := ht
          rw [he]
      · intro hfalse
        rw [show (hitH E (.sph s0) r t_min t_max rec).1 =
          (s0.hit E r t_min t_max rec).1 from rfl, hb] at hfalse
        cases hfalse
  | .msph m => by
    intro hw
    exact absurd hw (by simp [wfS])
  | .lst l => by
    intro hw
    exact absurd hw (by simp [wfS])
  | .node bb l rt => by
    intro hw hcond rec
    obtain ⟨hbb, hwl, hwr⟩ := hw
    have hcl : ∀ s ∈ leavesH l, 0 < s.radius ∧
        s.radius_squared = s.radius * s.radius ∧ sqrtExact s r := by
      intro s hs
      refine hcond s ?_
      simp only [leavesH, List.mem_append]
      exact Or.inl hs
    have hcr : ∀ s ∈ leavesH rt, 0 < s.radius ∧
        s.radius_squared = s.radius * s.radius ∧ sqrtExact s r := by
      intro s hs
      refine hcond s ?_
      simp only [leavesH, List.mem_append]
      exact Or.inr hs
    by_cases hB : AABB.hit bb r t_min t_max = true
    · rcases hL : hitH E l r t_min t_max default with ⟨bl, recl⟩
      rcases hR : hitH E rt r t_min t_max default with ⟨br, recr⟩
      have ihl := bvh_char E r t_min t_max l hwl hcl default
      have ihr := bvh_char E r t_min t_max rt hwr hcr default
      rw [hL] at ihl
      rw [hR] at ihr
      cases bl with
      | true =>
        obtain ⟨sl, hsl, hal, hml, hminl⟩ := ihl.1 rfl
        cases br with
        | true =>
          obtain ⟨sr, hsr, har, hmr, hminr⟩ := ihr.1 rfl
          by_cases htt : recl.t < recr.t
          · have hnode : hitH E (.node bb l rt) r t_min t_max rec =
                (true, recl) := by
              simp [hitH, hL, hR, hB, htt]
            rw [hnode]
            constructor
            · intro _
              refine ⟨sl, ?_, hal, hml, ?_⟩
              · simp only [leavesH, List.mem_append]
                exact Or.inl hsl
              intro s' hs' u hu
              simp only [leavesH, List.mem_append] at hs'
              rcases hs' with hs' | hs'
              · exact hminl s' hs' u hu
              · exact le_trans (le_of_lt htt) (hminr s' hs' u hu)
            · intro hfalse
              cases hfalse
          · have hnode : hitH E (.node bb l rt) r t_min t_max rec =
                (true, recr) := by
              simp [hitH, hL, hR, hB, htt]
            rw [hnode]
            constructor
            · intro _
              refine ⟨sr, ?_, har, hmr, ?_⟩
              · simp only [leavesH, List.mem_append]
                exact Or.inr hsr
              intro s' hs' u hu
              simp only [leavesH, List.mem_append] at hs'
              rcases hs' with hs' | hs'
              · exact le_trans (not_lt.mp htt) (hminl s' hs' u hu)
              · exact hminr s' hs' u hu
            · intro hfalse
              cases hfalse
        | false =>
          have hnone := ihr.2 rfl
          have hnode : hitH E (.node bb l rt) r t_min t_max rec =
              (true, recl) := by
            simp [hitH, hL, hR, hB]
          rw [hnode]
          constructor
          · intro _
            refine ⟨sl, ?_, hal, hml, ?_⟩
            · simp only [leavesH, List.mem_append]
              exact Or.inl hsl
            intro s' hs' u hu
            simp only [leavesH, List.mem_append] at hs'
            rcases hs' with hs' | hs'
            · exact hminl s' hs' u hu
            · rw [hnone s' hs'] at hu
              cases hu
          · intro hfalse
            cases hfalse
      | false =>
        have hnonel := ihl.2 rfl
        cases br with
        | true =>
          obtain ⟨sr, hsr, har, hmr, hminr⟩ := ihr.1 rfl
          have hnode : hitH E (.node bb l rt) r t_min t_max rec =
              (true, recr) := by
            simp [hitH, hL, hR, hB]
          rw [hnode]
          constructor
          · intro _
            refine ⟨sr, ?_, har, hmr, ?_⟩
            · simp only [leavesH, List.mem_append]
              exact Or.inr hsr
            intro s' hs' u hu
            simp only [leavesH, List.mem_append] at hs'
            rcases hs' with hs' | hs'
            · rw [hnonel s' hs'] at hu
              cases hu
            · exact hminr s' hs' u hu
          · intro hfalse
            cases hfalse
        | false =>
          have hnoner := ihr.2 rfl
          have hnode : hitH E (.node bb l rt) r t_min t_max rec =
              (false, rec) := by
            simp [hitH, hL, hR, hB]
          rw [hnode]
          constructor
          · intro htrue
            cases htrue
          · intro _ s hs
            simp only [leavesH, List.mem_append] at hs
            rcases hs with hs | hs
            · exact hnonel s hs
            · exact hnoner s hs
    · have hnode : hitH E (.node bb l rt) r t_min t_max rec =
          (false, rec) := by
        simp [hitH, hB]
      rw [hnode]
      constructor
      · intro htrue
        cases htrue
      · intro _ s hs
        rcases haccs : sphereAcc s r t_min t_max with _ | u
        · rfl
        · exfalso
          have hbounds := sphereAcc_bounds s r _ _ u haccs
          obtain ⟨hr0, hsq, hex⟩ := hcond s hs
          have hping := sphereAcc_in_box s r _ _ u hr0 hsq hex haccs
          have hsub := wfS_leaf_box (.node bb l rt) ⟨hbb, hwl, hwr⟩ s hs
          have hpin : pInB bb (r.pointAtParam u) :=
            pInB_mono hsub hping
          exact hB (AABB.hit_of_point bb r t_min t_max u
            (le_of_lt hbounds.1) (le_of_lt hbounds.2) hpin)

/-- Characterization of the `HitableList::hit` loop over spheres: relative
to the current narrowed window `c`, if some remaining sphere accepts a
parameter the loop reports the t-minimal one, and if none does the
accumulated state passes through unchanged. -/
theorem hitListAux_sphere_char (E : FExt) (r : Ray) (t_min : ℚ) :
    ∀ (l : List Sphere) (c : ℚ) (temp : HitRecord) (hA : Bool)
      (rec : HitRecord),
    ((∃ s ∈ l, (sphereAcc s r t_min c).isSome) →
      (hitListAux E (listOf l) r t_min c temp hA rec).1 = true ∧
      ∃ s ∈ l, sphereAcc s r t_min c =
          some (hitListAux E (listOf l) r t_min c temp hA rec).2.t ∧
        s.material =
          (hitListAux E (listOf l) r t_min c temp hA rec).2.material ∧
        ∀ s' ∈ l, ∀ u, sphereAcc s' r t_min c = some u →
          (hitListAux E (listOf l) r t_min c temp hA rec).2.t ≤ u) ∧
    ((∀ s ∈ l, sphereAcc s r t_min c = none) →
      hitListAux E (listOf l) r t_min c temp hA rec = (hA, rec))
  | [], c, temp, hA, rec => by
    constructor
    · rintro ⟨s, hs, _⟩
      cases hs
    · intro _
      rfl
  | s :: rest, c, temp, hA, rec => by
    have hsp := Sphere.hit_acc E s r t_min c temp
    rcases hacs : sphereAcc s r t_min c with _ | t
    · rw [hacs] at hsp
      have hstep : hitListAux E (listOf (s :: rest)) r t_min c temp hA rec =
          hitListAux E (listOf rest) r t_min c temp hA rec := by
        simp only [listOf, hitListAux, hitH, hsp, Bool.false_eq_true,
          if_false]
      rw [hstep]
      have IH := hitListAux_sphere_char E r t_min rest c temp hA rec
      constructor
      · rintro ⟨s', hs', hsome⟩
        rcases List.mem_cons.mp hs' with rfl | hmem
        · rw [hacs] at hsome
          cases hsome
        · obtain ⟨h1, s2, hs2, ha2, hm2, hmin2⟩ := IH.1 ⟨s', hmem, hsome⟩
          refine ⟨h1, s2, List.mem_cons_of_mem _ hs2, ha2, hm2, ?_⟩
          intro s'' hs'' u hu
          rcases List.mem_cons.mp hs'' with rfl | hmem2
          · rw [hacs] at hu
            cases hu
          · exact hmin2 s'' hmem2 u hu
      · intro hall
        exact IH.2 (fun s'' h => hall s'' (List.mem_cons_of_mem _ h))
    · rw [hacs] at hsp
      obtain ⟨hb1, ht1, hm1⟩ := hsp
      have hstep : hitListAux E (listOf (s :: rest)) r t_min c temp hA rec =
          hitListAux E (listOf rest) r t_min ((s.hit E r t_min c temp).2.t)
            ((s.hit E r t_min c temp).2) true
            ((s.hit E r t_min c temp).2) := by
        simp only [listOf, hitListAux, hitH]
        rw [if_pos hb1]
      rw [hstep, ht1]
      have hbounds := sphereAcc_bounds s r t_min c t hacs
      have hwc : t ≤ c := le_of_lt hbounds.2
      have IH := hitListAux_sphere_char E r t_min rest t
        ((s.hit E r t_min c temp).2) true ((s.hit E r t_min c temp).2)
      by_cases hex2 : ∃ s' ∈ rest, (sphereAcc s' r t_min t).isSome
      · obtain ⟨h1, s2, hs2, ha2, hm2, hmin2⟩ := IH.1 hex2
        have hRt := (sphereAcc_bounds s2 r t_min t _ ha2).2
        constructor
        · intro _
          have ha2' := sphereAcc_widen s2 r t_min t c _ hwc ha2
          refine ⟨h1, s2, List.mem_cons_of_mem _ hs2, ha2', hm2, ?_⟩
          intro s' hs' u hu
          rcases List.mem_cons.mp hs' with rfl | hmem2
          · rw [hacs] at hu
            cases hu
            exact le_of_lt hRt
          · by_cases hu_lt : u < t
            · exact hmin2 s' hmem2 u
                (sphereAcc_narrow_some s' r t_min t c u hwc hu hu_lt)
            · linarith [not_lt.mp hu_lt]
        · intro hall
          have := hall s (List.mem_cons_self s rest)
          rw [hacs] at this
          cases this
      · have hall2 : ∀ s' ∈ rest, sphereAcc s' r t_min t = none := by
          intro s' hs'
          rcases hn : sphereAcc s' r t_min t with _ | v
          · rfl
          · exact absurd ⟨s', hs', by rw [hn]; rfl⟩ hex2
        have hres2 := IH.2 hall2
        rw [hres2]
        constructor
        · intro _
          dsimp only
          refine ⟨rfl, s, List.mem_cons_self s rest, ?_, ?_, ?_⟩
          · rw [ht1]
            exact hacs
          · exact hm1.symm
          · intro s' hs' u hu
            rw [ht1]
            rcases List.mem_cons.mp hs' with rfl | hmem2
            · rw [hacs] at hu
              cases hu
              exact le_refl _
            · by_cases hu_lt : u < t
              · have := sphereAcc_narrow_some s' r t_min t c u hwc hu hu_lt
                rw [hall2 s' hmem2] at this
                cases this
              · exact not_lt.mp hu_lt
        · intro hall
          have := hall s (List.mem_cons_self s rest)
          rw [hacs] at this
          cases this

/-- Characterization of `HitableList::hit` over a list of spheres. -/
theorem list_hit_char (E : FExt) (r : Ray) (t_min t_max : ℚ)
    (l : List Sphere) (rec : HitRecord) :
    ((hitH E (.lst (listOf l)) r t_min t_max rec).1 = true →
      ∃ s ∈ l, sphereAcc s r t_min t_max =
          some (hitH E (.lst (listOf l)) r t_min t_max rec).2.t ∧
        s.material =
          (hitH E (.lst (listOf l)) r t_min t_max rec).2.material ∧
        ∀ s' ∈ l, ∀ u, sphereAcc s' r t_min t_max = some u →
          (hitH E (.lst (listOf l)) r t_min t_max rec).2.t ≤ u) ∧
    ((hitH E (.lst (listOf l)) r t_min t_max rec).1 = false →
      ∀ s ∈ l, sphereAcc s r t_min t_max = none) := by
  have hchar := hitListAux_sphere_char E r t_min l t_max default false rec
  have hrw : hitH E (.lst (listOf l)) r t_min t_max rec =
      hitListAux E (listOf l) r t_min t_max default false rec := by
    simp only [hitH]
  rw [hrw]
  constructor
  · intro htrue
    by_cases hex : ∃ s ∈ l, (sphereAcc s r t_min t_max).isSome
    · exact (hchar.1 hex).2
    · have hall : ∀ s ∈ l, sphereAcc s r t_min t_max = none := by
        intro s hs
        rcases hn : sphereAcc s r t_min t_max with _ | v
        · rfl
        · exact absurd ⟨s, hs, by rw [hn]; rfl⟩ hex
      rw [hchar.2 hall] at htrue
      cases htrue
  · intro hfalse s hs
    rcases hn : sphereAcc s r t_min t_max with _ | v
    · rfl
    · have h1 := (hchar.1 ⟨s, hs, by rw [hn]; rfl⟩).1
      rw [h1] at hfalse
      cases hfalse

theorem bvhNewAux_unfold (g : ℕ → ℚ) (fuel k : ℕ) (l : List Sphere) :
    bvhNewAux g fuel k l =
      match l.mergeSort (sphLe (axisOf (g k))) with
      | [] => (.sph (Sphere.new ⟨0, 0, 0⟩ 0 0), k + 1)
      | [a] => (.node (AABB.surround a.boundingBox a.boundingBox)
          (.sph a) (.sph a), k + 1)
      | [a, b] => (.node (AABB.surround a.boundingBox b.boundingBox)
          (.sph a) (.sph b), k + 1)
      | a :: b :: c :: rest =>
        match fuel with
        | 0 => (.sph (Sphere.new ⟨0, 0, 0⟩ 0 0), k + 1)
        | fuel' + 1 =>
          let l' := a :: b :: c :: rest
          let i := l'.length / 2
          let res1 := bvhNewAux g fuel' (k + 1) (l'.take i)
          let res2 := bvhNewAux g fuel' res1.2 (l'.drop i)
          (.node (AABB.surround (boxOfH res1.1) (boxOfH res2.1))
            res1.1 res2.1, res2.2) := by
  rw [bvhNewAux]

/-- `BVH::new` builds a well-formed tree whose leaves are exactly the
input spheres (up to the deliberate duplication of a singleton leaf). -/
theorem bvhNewAux_wf (g : ℕ → ℚ) : ∀ (fuel k : ℕ) (l : List Sphere),
    l ≠ [] → l.length ≤ fuel + 2 →
    wfS (bvhNewAux g fuel k l).1 ∧
    (∀ s, s ∈ leavesH (bvhNewAux g fuel k l).1 ↔ s ∈ l) := by
  intro fuel
  induction fuel with
  | zero =>
    intro k l hne hlen
    rw [bvhNewAux_unfold]
    rcases hsort : l.mergeSort (sphLe (axisOf (g k))) with _ | ⟨a, _ | ⟨b, _ | ⟨c, rest⟩⟩⟩
    · exfalso
      have := @List.length_mergeSort _ (sphLe (axisOf (g k))) l
      rw [hsort] at this
      exact hne (List.eq_nil_of_length_eq_zero this.symm)
    · constructor
      · exact ⟨rfl, trivial, trivial⟩
      · intro s
        have hmem := @List.mem_mergeSort _ (sphLe (axisOf (g k))) s l
        rw [hsort] at hmem
        simp only [leavesH, List.mem_append, List.mem_singleton, or_self]
        rw [← @List.mem_singleton _ s a]
        exact hmem
    · constructor
      · exact ⟨rfl, trivial, trivial⟩
      · intro s
        have hmem := @List.mem_mergeSort _ (sphLe (axisOf (g k))) s l
        rw [hsort] at hmem
        simp only [leavesH, List.mem_append, List.mem_singleton]
        rw [← hmem]
        simp [List.mem_cons]
    · exfalso
      have := @List.length_mergeSort _ (sphLe (axisOf (g k))) l
      rw [hsort] at this
      simp only [List.length_cons] at this
      omega
  | succ fuel' ih =>
    intro k l hne hlen
    rw [bvhNewAux_unfold]
    rcases hsort : l.mergeSort (sphLe (axisOf (g k))) with _ | ⟨a, _ | ⟨b, _ | ⟨c, rest⟩⟩⟩
    · exfalso
      have := @List.length_mergeSort _ (sphLe (axisOf (g k))) l
      rw [hsort] at this
      exact hne (List.eq_nil_of_length_eq_zero this.symm)
    · constructor
      · exact ⟨rfl, trivial, trivial⟩
      · intro s
        have hmem := @List.mem_mergeSort _ (sphLe (axisOf (g k))) s l
        rw [hsort] at hmem
        simp only [leavesH, List.mem_append, List.mem_singleton, or_self]
        rw [← @List.mem_singleton _ s a]
        exact hmem
    · constructor
      · exact ⟨rfl, trivial, trivial⟩
      · intro s
        have hmem := @List.mem_mergeSort _ (sphLe (axisOf (g k))) s l
        rw [hsort] at hmem
        simp only [leavesH, List.mem_append, List.mem_singleton]
        rw [← hmem]
        simp [List.mem_cons]
    · have hlength := @List.length_mergeSort _ (sphLe (axisOf (g k))) l
      rw [hsort] at hlength
      simp only [List.length_cons] at hlength
      set L : List Sphere := a :: b :: c :: rest with hL
      have hLlen : L.length = rest.length + 3 := by
        simp [hL]
      have hlen' : L.length ≤ fuel' + 3 := by
        rw [hLlen]
        omega
      set i : ℕ := L.length / 2 with hi
      have hi1 : 1 ≤ i := by
        rw [hi, hLlen]
        omega
      have hiL : i < L.length := by
        rw [hi, hLlen]
        omega
      have htake_len : (L.take i).length = i := by
        rw [List.length_take]
        omega
      have hdrop_len : (L.drop i).length = L.length - i := by
        rw [List.length_drop]
      have htake_ne : L.take i ≠ [] := by
        intro h
        rw [h] at htake_len
        simp at htake_len
        omega
      have hdrop_ne : L.drop i ≠ [] := by
        intro h
        rw [h] at hdrop_len
        simp at hdrop_len
        omega
      have htake_fuel : (L.take i).length ≤ fuel' + 2 := by
        rw [htake_len, hi, hLlen]
        omega
      have hdrop_fuel : (L.drop i).length ≤ fuel' + 2 := by
        rw [hdrop_len, hi, hLlen]
        omega
      have ih1 := ih (k + 1) (L.take i) htake_ne htake_fuel
      have ih2 := ih (bvhNewAux g fuel' (k + 1) (L.take i)).2 (L.drop i)
        hdrop_ne hdrop_fuel
      constructor
      · exact ⟨rfl, ih1.1, ih2.1⟩
      · intro s
        have hmem := @List.mem_mergeSort _ (sphLe (axisOf (g k))) s l
        rw [hsort] at hmem
        simp only [leavesH, List.mem_append]
        rw [ih1.2 s, ih2.2 s]
        constructor
        · intro h
          rw [← hmem]
          rcases h with h | h
          · exact List.mem_of_mem_take h
          · exact List.mem_of_mem_drop h
        · intro h
          rw [← hmem] at h
          rw [← List.take_append_drop i L, List.mem_append] at h
          exact h

/-- C1 (amended): over any nonempty finite list of well-formed sphere
primitives (positive radius, cached square, exactly representable
discriminant square roots — the claim's floating-point-tolerance hedge), a
BVH built by `BVH::new` (any rng stream) and a `HitableList` over the same
spheres agree unconditionally on the hit/miss boolean and on the nearest
`t`; they agree on the material index as well provided no two spheres of
the set are accepted at exactly the same parameter with different
materials (on such exact ties the two aggregates break the tie
differently — see the counterexample). -/
theorem claim1_bvh_list_equivalence (E : FExt) (g : ℕ → ℚ)
    (l : List Sphere) (r : Ray) (t_min t_max : ℚ)
    (rec1 rec2 : HitRecord)
    (hne : l ≠ [])
    (_hlt : t_min < t_max)
    (hwf : ∀ s ∈ l, 0 < s.radius ∧
      s.radius_squared = s.radius * s.radius ∧ sqrtExact s r) :
    (hitH E (bvhNew g l) r t_min t_max rec1).1 =
      (hitH E (.lst (listOf l)) r t_min t_max rec2).1 ∧
    ((hitH E (bvhNew g l) r t_min t_max rec1).1 = true →
      (hitH E (bvhNew g l) r t_min t_max rec1).2.t =
        (hitH E (.lst (listOf l)) r t_min t_max rec2).2.t) ∧
    ((∀ s ∈ l, ∀ s' ∈ l, ∀ u, sphereAcc s r t_min t_max = some u →
        sphereAcc s' r t_min t_max = some u → s.material = s'.material) →
      (hitH E (bvhNew g l) r t_min t_max rec1).1 = true →
      (hitH E (bvhNew g l) r t_min t_max rec1).2.material =
        (hitH E (.lst (listOf l)) r t_min t_max rec2).2.material) := by
  have hwftree := bvhNewAux_wf g l.length 0 l hne (by omega)
  have hcond : ∀ s ∈ leavesH (bvhNew g l), 0 < s.radius ∧
      s.radius_squared = s.radius * s.radius ∧ sqrtExact s r :=
    fun s hs => hwf s ((hwftree.2 s).mp hs)
  have hbvh := bvh_char E r t_min t_max (bvhNew g l) hwftree.1 hcond rec1
  have hlst := list_hit_char E r t_min t_max l rec2
  have hbool : (hitH E (bvhNew g l) r t_min t_max rec1).1 =
      (hitH E (.lst (listOf l)) r t_min t_max rec2).1 := by
    cases hB : (hitH E (bvhNew g l) r t_min t_max rec1).1 with
    | true =>
      obtain ⟨sb, hsb, hab, hmb, hminb⟩ := hbvh.1 hB
      cases hL : (hitH E (.lst (listOf l)) r t_min t_max rec2).1 with
      | false =>
        have hn := hlst.2 hL sb ((hwftree.2 sb).mp hsb)
        rw [hn] at hab
        cases hab
      | true => rfl
    | false =>
      cases hL : (hitH E (.lst (listOf l)) r t_min t_max rec2).1 with
      | true =>
        obtain ⟨sl, hsl, hal, _, _⟩ := hlst.1 hL
        have hn := hbvh.2 hB sl ((hwftree.2 sl).mpr hsl)
        rw [hn] at hal
        cases hal
      | false => rfl
  have htEq : (hitH E (bvhNew g l) r t_min t_max rec1).1 = true →
      (hitH E (bvhNew g l) r t_min t_max rec1).2.t =
        (hitH E (.lst (listOf l)) r t_min t_max rec2).2.t := by
    intro hB
    have hL : (hitH E (.lst (listOf l)) r t_min t_max rec2).1 = true := by
      rw [← hbool]
      exact hB
    obtain ⟨sb, hsb, hab, hmb, hminb⟩ := hbvh.1 hB
    obtain ⟨sl, hsl, hal, hml, hminl⟩ := hlst.1 hL
    exact le_antisymm (hminb sl ((hwftree.2 sl).mpr hsl) _ hal)
      (hminl sb ((hwftree.2 sb).mp hsb) _ hab)
  refine ⟨hbool, htEq, ?_⟩
  intro hmat hB
  have hL : (hitH E (.lst (listOf l)) r t_min t_max rec2).1 = true := by
    rw [← hbool]
    exact hB
  obtain ⟨sb, hsb, hab, hmb, hminb⟩ := hbvh.1 hB
  obtain ⟨sl, hsl, hal, hml, hminl⟩ := hlst.1 hL
  have ht := htEq hB
  have hmm := hmat sb ((hwftree.2 sb).mp hsb) sl hsl _ hab
    (by rw [ht]; exact hal)
  rw [← hmb, ← hml]
  exact hmm

theorem claim1_bvh_list_equivalence_witness :
    (hitH dummyExt (bvhNew (fun _ => (0 : ℚ)) [Sphere.new ⟨0, 0, 5⟩ 1 0])
        ⟨⟨0, 0, 0⟩, ⟨0, 0, 1⟩, 0, 0⟩ 0 100 default).1 =
      (hitH dummyExt (.lst (listOf [Sphere.new ⟨0, 0, 5⟩ 1 0]))
        ⟨⟨0, 0, 0⟩, ⟨0, 0, 1⟩, 0, 0⟩ 0 100 default).1 ∧
    ((hitH dummyExt (bvhNew (fun _ => (0 : ℚ)) [Sphere.new ⟨0, 0, 5⟩ 1 0])
        ⟨⟨0, 0, 0⟩, ⟨0, 0, 1⟩, 0, 0⟩ 0 100 default).1 = true →
      (hitH dummyExt (bvhNew (fun _ => (0 : ℚ)) [Sphere.new ⟨0, 0, 5⟩ 1 0])
          ⟨⟨0, 0, 0⟩, ⟨0, 0, 1⟩, 0, 0⟩ 0 100 default).2.t =
        (hitH dummyExt (.lst (listOf [Sphere.new ⟨0, 0, 5⟩ 1 0]))
          ⟨⟨0, 0, 0⟩, ⟨0, 0, 1⟩, 0, 0⟩ 0 100 default).2.t) ∧
    ((∀ s ∈ [Sphere.new ⟨0, 0, 5⟩ 1 0],
        ∀ s' ∈ [Sphere.new ⟨0, 0, 5⟩ 1 0], ∀ u,
        sphereAcc s ⟨⟨0, 0, 0⟩, ⟨0, 0, 1⟩, 0, 0⟩ 0 100 = some u →
        sphereAcc s' ⟨⟨0, 0, 0⟩, ⟨0, 0, 1⟩, 0, 0⟩ 0 100 = some u →
        s.material = s'.material) →
      (hitH dummyExt (bvhNew (fun _ => (0 : ℚ)) [Sphere.new ⟨0, 0, 5⟩ 1 0])
          ⟨⟨0, 0, 0⟩, ⟨0, 0, 1⟩, 0, 0⟩ 0 100 default).1 = true →
      (hitH dummyExt (bvhNew (fun _ => (0 : ℚ)) [Sphere.new ⟨0, 0, 5⟩ 1 0])
          ⟨⟨0, 0, 0⟩, ⟨0, 0, 1⟩, 0, 0⟩ 0 100 default).2.material =
        (hitH dummyExt (.lst (listOf [Sphere.new ⟨0, 0, 5⟩ 1 0]))
          ⟨⟨0, 0, 0⟩, ⟨0, 0, 1⟩, 0, 0⟩ 0 100 default).2.material) := by
  refine claim1_bvh_list_equivalence dummyExt (fun _ => (0 : ℚ))
    [Sphere.new ⟨0, 0, 5⟩ 1 0] ⟨⟨0, 0, 0⟩, ⟨0, 0, 1⟩, 0, 0⟩ 0 100
    default default (by simp) (by norm_num) ?_
  intro s hs
  simp only [List.mem_singleton] at hs
  subst hs
  refine ⟨by norm_num [Sphere.new], by norm_num [Sphere.new], ?_⟩
  simp only [sqrtExact, Sphere.new, Vec3.dot]
  norm_num [msqrt_one]

theorem msqrt_nine_sixteenth : msqrt (9 / 16 : ℚ) = 3 / 4 := by
  have h := @msqrt_sq (3 / 4 : ℚ) (by norm_num)
  norm_num at h
  exact h

/-- The BVH built over the two tie spheres: a single node with the two
spheres as leaves, in input order (the x-axis comparator keeps them). -/
theorem bvhTie_tree : bvhNew (fun _ => (0 : ℚ))
    [Sphere.new ⟨-1, 0, 5⟩ (5/4) 0, Sphere.new ⟨1, 0, 5⟩ (5/4) 1] =
    .node (AABB.surround (Sphere.new ⟨-1, 0, 5⟩ (5/4) 0).boundingBox
        (Sphere.new ⟨1, 0, 5⟩ (5/4) 1).boundingBox)
      (.sph (Sphere.new ⟨-1, 0, 5⟩ (5/4) 0))
      (.sph (Sphere.new ⟨1, 0, 5⟩ (5/4) 1)) := by
  have haxis : axisOf ((fun _ => (0 : ℚ)) 0) = 0 := by
    have h : (3 * ((fun _ => (0 : ℚ)) 0)) = 0 := by norm_num
    simp only [axisOf, h]
    rfl
  have hc : sphLe 0 (Sphere.new ⟨-1, 0, 5⟩ (5/4) 0)
      (Sphere.new ⟨1, 0, 5⟩ (5/4) 1) = true := by
    simp only [sphLe, boxMinAxis, Sphere.new, Sphere.boundingBox]
    norm_num
  have hsort : [Sphere.new ⟨-1, 0, 5⟩ (5/4) 0,
      Sphere.new ⟨1, 0, 5⟩ (5/4) 1].mergeSort
      (sphLe (axisOf ((fun _ => (0 : ℚ)) 0))) =
      [Sphere.new ⟨-1, 0, 5⟩ (5/4) 0, Sphere.new ⟨1, 0, 5⟩ (5/4) 1] := by
    rw [haxis]
    simp [List.mergeSort, List.merge, hc]
  simp only [bvhNew, List.length]
  rw [bvhNewAux_unfold, hsort]

/-- The left tie sphere accepts `t = 17/4` on the window `(0, 100)`. -/
theorem bvhTie_hitA (rec : HitRecord) :
    Sphere.hit dummyExt (Sphere.new ⟨-1, 0, 5⟩ (5/4) 0)
      ⟨⟨0, 0, 0⟩, ⟨0, 0, 1⟩, 0, 0⟩ 0 100 rec =
    (true, { t := 17/4, p := ⟨0, 0, 17/4⟩, normal := ⟨4/5, 0, -3/5⟩,
             material := 0, u := 1, v := 0 }) := by
  simp only [Sphere.hit, Sphere.new, Vec3.dot, Ray.pointAtParam,
    Vec3.sdiv, dummyExt]
  norm_num [msqrt_nine_sixteenth, Prod.ext_iff, HitRecord.mk.injEq,
    Vec3.eq_iff]

/-- The right tie sphere accepts the same `t = 17/4` on `(0, 100)`. -/
theorem bvhTie_hitB (rec : HitRecord) :
    Sphere.hit dummyExt (Sphere.new ⟨1, 0, 5⟩ (5/4) 1)
      ⟨⟨0, 0, 0⟩, ⟨0, 0, 1⟩, 0, 0⟩ 0 100 rec =
    (true, { t := 17/4, p := ⟨0, 0, 17/4⟩, normal := ⟨-4/5, 0, -3/5⟩,
             material := 1, u := 1, v := 0 }) := by
  simp only [Sphere.hit, Sphere.new, Vec3.dot, Ray.pointAtParam,
    Vec3.sdiv, dummyExt]
  norm_num [msqrt_nine_sixteenth, Prod.ext_iff, HitRecord.mk.injEq,
    Vec3.eq_iff]

/-- On the strictly narrowed window `(0, 17/4)` of the list loop, the
right tie sphere misses (both roots fail `temp < t_max`). -/
theorem bvhTie_hitB_narrow (rec : HitRecord) :
    Sphere.hit dummyExt (Sphere.new ⟨1, 0, 5⟩ (5/4) 1)
      ⟨⟨0, 0, 0⟩, ⟨0, 0, 1⟩, 0, 0⟩ 0 (17/4) rec = (false, rec) := by
  simp only [Sphere.hit, Sphere.new, Vec3.dot, Ray.pointAtParam,
    Vec3.sdiv, dummyExt]
  norm_num [msqrt_nine_sixteenth]

/-- The surrounding box of the two tie spheres passes the slab test for
the `+z` ray. -/
theorem bvhTie_box :
    AABB.hit (AABB.surround (Sphere.new ⟨-1, 0, 5⟩ (5/4) 0).boundingBox
        (Sphere.new ⟨1, 0, 5⟩ (5/4) 1).boundingBox)
      ⟨⟨0, 0, 0⟩, ⟨0, 0, 1⟩, 0, 0⟩ 0 100 = true := by
  norm_num [AABB.hit, AABB.surround, Sphere.new, Sphere.boundingBox,
    Vec3.cmin, Vec3.cmax, slab, XF.inv, XF.lt, XF.mulQ]

/-- `BVH::hit` at the exact tie `17/4 < 17/4 = false` keeps the RIGHT
child's record: material `1`. -/
theorem bvhTie_node :
    hitH dummyExt
      (.node (AABB.surround (Sphere.new ⟨-1, 0, 5⟩ (5/4) 0).boundingBox
          (Sphere.new ⟨1, 0, 5⟩ (5/4) 1).boundingBox)
        (.sph (Sphere.new ⟨-1, 0, 5⟩ (5/4) 0))
        (.sph (Sphere.new ⟨1, 0, 5⟩ (5/4) 1)))
      ⟨⟨0, 0, 0⟩, ⟨0, 0, 1⟩, 0, 0⟩ 0 100 default =
    (true, { t := 17/4, p := ⟨0, 0, 17/4⟩, normal := ⟨-4/5, 0, -3/5⟩,
             material := 1, u := 1, v := 0 }) := by
  simp only [hitH, bvhTie_hitA, bvhTie_hitB, bvhTie_box, if_true]
  norm_num

/-- `HitableList::hit` over the same two spheres keeps the FIRST
element's record (the strict narrowing rejects the tie): material `0`. -/
theorem bvhTie_list :
    hitH dummyExt
      (.lst (listOf [Sphere.new ⟨-1, 0, 5⟩ (5/4) 0,
        Sphere.new ⟨1, 0, 5⟩ (5/4) 1]))
      ⟨⟨0, 0, 0⟩, ⟨0, 0, 1⟩, 0, 0⟩ 0 100 default =
    (true, { t := 17/4, p := ⟨0, 0, 17/4⟩, normal := ⟨4/5, 0, -3/5⟩,
             material := 0, u := 1, v := 0 }) := by
  simp only [hitH, listOf, hitListAux, bvhTie_hitA, bvhTie_hitB_narrow]
  norm_num

/-- Counterexample to the literal claim: two spheres hit at exactly the
same parameter `t = 17/4`; the BVH and the list both report a hit with
the same `t`, yet the BVH returns the record of the right child
(material `1`) while the list keeps the earlier element (material `0`). -/
theorem claim1_bvh_list_counterexample :
    (hitH dummyExt (bvhNew (fun _ => (0 : ℚ))
        [Sphere.new ⟨-1, 0, 5⟩ (5/4) 0, Sphere.new ⟨1, 0, 5⟩ (5/4) 1])
      ⟨⟨0, 0, 0⟩, ⟨0, 0, 1⟩, 0, 0⟩ 0 100 default).1 = true ∧
    (hitH dummyExt (.lst (listOf [Sphere.new ⟨-1, 0, 5⟩ (5/4) 0,
        Sphere.new ⟨1, 0, 5⟩ (5/4) 1]))
      ⟨⟨0, 0, 0⟩, ⟨0, 0, 1⟩, 0, 0⟩ 0 100 default).1 = true ∧
    (hitH dummyExt (bvhNew (fun _ => (0 : ℚ))
        [Sphere.new ⟨-1, 0, 5⟩ (5/4) 0, Sphere.new ⟨1, 0, 5⟩ (5/4) 1])
      ⟨⟨0, 0, 0⟩, ⟨0, 0, 1⟩, 0, 0⟩ 0 100 default).2.t =
    (hitH dummyExt (.lst (listOf [Sphere.new ⟨-1, 0, 5⟩ (5/4) 0,
        Sphere.new ⟨1, 0, 5⟩ (5/4) 1]))
      ⟨⟨0, 0, 0⟩, ⟨0, 0, 1⟩, 0, 0⟩ 0 100 default).2.t ∧
    (hitH dummyExt (bvhNew (fun _ => (0 : ℚ))
        [Sphere.new ⟨-1, 0, 5⟩ (5/4) 0, Sphere.new ⟨1, 0, 5⟩ (5/4) 1])
      ⟨⟨0, 0, 0⟩, ⟨0, 0, 1⟩, 0, 0⟩ 0 100 default).2.material = 1 ∧
    (hitH dummyExt (.lst (listOf [Sphere.new ⟨-1, 0, 5⟩ (5/4) 0,
        Sphere.new ⟨1, 0, 5⟩ (5/4) 1]))
      ⟨⟨0, 0, 0⟩, ⟨0, 0, 1⟩, 0, 0⟩ 0 100 default).2.material = 0 := by
  rw [bvhTie_tree, bvhTie_node, bvhTie_list]
  exact ⟨rfl, rfl, rfl, rfl, rfl⟩
